import Mathlib

/-!
A shallow embedding of the state-reconciliation and tool-orchestration engine
of the `n8n-nodes-stateful-ai` repository
(`src/nodes/StatefulAIAgent/StatefulAIAgent.node.ts` and
`src/nodes/AIStateHandler/AIStateHandler.node.ts`), together with proofs of
the behavioural properties stated in the specification.

Modelling conventions:
* JavaScript/JSON values are modelled by `JValue`.  JSON numbers are modelled
  as integers (`Int`); objects are modelled as ordered association lists of
  fields (JSON.parse never produces duplicate keys, and field order is the
  insertion order, as in V8).  `undefined` is modelled as `Option.none` at the
  use sites that distinguish it from `null`.
* Thrown JavaScript exceptions are modelled with `Except String`.
* External collaborators (the language model, the tools, the state store) are
  oracle parameters: the model is a function from the call index to the raw
  returned text, a tool is a name together with an `invoke` function that can
  fail, and the store is the object returned by the initial `get`.
-/

set_option maxHeartbeats 1000000

namespace StatefulAI

/-- JSON/JavaScript values: the data the engine manipulates. -/
inductive JValue where
  | null : JValue
  | bool (b : Bool) : JValue
  | num (n : Int) : JValue
  | str (s : String) : JValue
  | arr (elems : List JValue) : JValue
  | obj (fields : List (String × JValue)) : JValue

/-- The fields of a JavaScript object, in insertion order. -/
abbrev Fields := List (String × JValue)

/-- JavaScript truthiness of a value. -/
def jsTruthy : JValue → Bool
  | .null => false
  | .bool b => b
  | .num n => n != 0
  | .str s => s ≠ ""
  | .arr _ => true
  | .obj _ => true

/-- `a || b` on JavaScript values (`b` when `a` is falsy). -/
def jsOr (a b : JValue) : JValue := if jsTruthy a then a else b

/-- First-occurrence key lookup in an object's field list
(`o[k]`, yielding `none` for `undefined`). -/
def getKeyF : Fields → String → Option JValue
  | [], _ => none
  | (k, v) :: rest, key => if k = key then some v else getKeyF rest key

/-- Assignment `o[k] = v` on an object's field list: replaces the value of an
existing key in place, otherwise appends the new key at the end (JavaScript
property insertion order). -/
def setKeyF : Fields → String → JValue → Fields
  | [], key, v => [(key, v)]
  | (k, w) :: rest, key, v =>
      if k = key then (k, v) :: rest else (k, w) :: setKeyF rest key v

/-- Characters matched by JavaScript whitespace (trim and the regex class \s,
restricted to the ASCII range that occurs in model output). -/
def isJsWs (c : Char) : Bool :=
  c = ' ' ∨ c = '\t' ∨ c = '\n' ∨ c = '\r' ∨ c = '\x0b' ∨ c = '\x0c'

/-- Splitting a character list at every dot (the characters of the result of
JavaScript path.split('.')). -/
def splitChars : List Char → List (List Char)
  | [] => [[]]
  | c :: rest =>
      if c = '.' then [] :: splitChars rest
      else
        match splitChars rest with
        | h :: t => (c :: h) :: t
        | [] => [[c]]

/-- The embedding of JavaScript path.split('.'). -/
def splitDots (s : String) : List String :=
  (splitChars s.data).map fun l => ⟨l⟩

/-- Dot-joining a chain of keys (the left inverse of splitDots on dot-free
keys). -/
def joinDots : List String → String
  | [] => ""
  | [k] => k
  | k :: rest => k ++ "." ++ joinDots rest

/-- Values with typeof 'object' other than null: the values getNestedValue
keeps traversing into (arrays included, since typeof [] is 'object'). -/
def isTraversable : JValue → Bool
  | .obj _ => true
  | .arr _ => true
  | _ => false

/-- The numeric value of a decimal digit character. -/
def digitVal (c : Char) : Option Nat :=
  if 48 ≤ c.toNat ∧ c.toNat ≤ 57 then some (c.toNat - 48) else none

/-- Accumulating digit parse for the tail of a decimal numeral. -/
def digitsAcc : List Char → Nat → Option Nat
  | [], acc => some acc
  | c :: rest, acc =>
      match digitVal c with
      | some d => digitsAcc rest (acc * 10 + d)
      | none => none

/-- A canonical decimal array index: a digit string without leading zeros
(JavaScript treats only such property names as array indices). -/
def canonicalIndex : List Char → Option Nat
  | [] => none
  | [c] => digitVal c
  | c :: rest =>
      if c = '0' then none
      else
        match digitVal c with
        | some d => digitsAcc rest d
        | none => none

/-- Array property access arr[k] for a JSON-originated array: the length
property, or an element at a canonical decimal index. -/
def arrIndex (l : List JValue) (k : String) : Option JValue :=
  if k = "length" then some (.num l.length)
  else
    match canonicalIndex k.data with
    | some i => l[i]?
    | none => none

/-- Property access current[part] on a JSON value, as performed by the loop of
getNestedValue; none models JavaScript undefined. -/
def jsIndex : JValue → String → Option JValue
  | .obj f, k => getKeyF f k
  | .arr l, k => arrIndex l k
  | _, _ => none

/-- The loop of getNestedValue: walk the split path through the value.  Each
iteration first returns undefined when the current value is null, undefined or
not an object, then steps into the next part. -/
def getPartsO : Option JValue → List String → Option JValue
  | o, [] => o
  | none, _ :: _ => none
  | some v, k :: rest =>
      if isTraversable v then getPartsO (jsIndex v k) rest else none

/-- static getNestedValue(obj, path) of StatefulAIAgent. -/
def getNestedValue (o : JValue) (path : String) : Option JValue :=
  getPartsO (some o) (splitDots path)

/-- The loop of setNestedValue on an object's field list: walk all parts but
the last, replacing a missing, non-object, null or array intermediate with a
fresh empty object, then assign the value at the last part.  (The empty-path
case never arises: split('.') always yields at least one part.) -/
def setPartsF : Fields → List String → JValue → Fields
  | f, [], _ => f
  | f, k :: rest, v =>
      match rest with
      | [] => setKeyF f k v
      | _ :: _ =>
          match getKeyF f k with
          | some (.obj sub) => setKeyF f k (.obj (setPartsF sub rest v))
          | _ => setKeyF f k (.obj (setPartsF [] rest v))

/-- static setNestedValue(obj, path, value), as a functional update. -/
def setNestedValue (f : Fields) (path : String) (v : JValue) : Fields :=
  setPartsF f (splitDots path) v

/-- A hexadecimal digit character, for JSON control-character escapes. -/
def hexDigit (n : Nat) : Char :=
  if n < 10 then Char.ofNat (48 + n) else Char.ofNat (87 + n)

/-- JSON string escaping as performed by JSON.stringify. -/
def escapeChar (c : Char) : List Char :=
  if c = '"' then ['\\', '"']
  else if c = '\\' then ['\\', '\\']
  else if c = '\n' then ['\\', 'n']
  else if c = '\r' then ['\\', 'r']
  else if c = '\t' then ['\\', 't']
  else if c = '\x08' then ['\\', 'b']
  else if c = '\x0c' then ['\\', 'f']
  else if c.toNat < 32 then
    ['\\', 'u', '0', '0', hexDigit (c.toNat / 16), hexDigit (c.toNat % 16)]
  else [c]

/-- A JSON string literal for s, quoted and escaped. -/
def quoteString (s : String) : String :=
  ⟨'"' :: s.data.foldr (fun c acc => escapeChar c ++ acc) ['"']⟩

mutual
/-- JSON.stringify on our JSON values (numbers are modelled as integers). -/
def stringify : JValue → String
  | .null => "null"
  | .bool true => "true"
  | .bool false => "false"
  | .num n => toString n
  | .str s => quoteString s
  | .arr l => "[" ++ stringifyList l ++ "]"
  | .obj f => "\x7b" ++ stringifyFields f ++ "\x7d"
/-- Comma-separated serialization of array elements. -/
def stringifyList : List JValue → String
  | [] => ""
  | [v] => stringify v
  | v :: rest => stringify v ++ "," ++ stringifyList rest
/-- Comma-separated serialization of object members. -/
def stringifyFields : Fields → String
  | [] => ""
  | [(k, v)] => quoteString k ++ ":" ++ stringify v
  | (k, v) :: rest => quoteString k ++ ":" ++ stringify v ++ "," ++ stringifyFields rest
end

/-- JSON.stringify lifted to possibly-undefined values: stringify of
undefined is undefined, and the code compares such results with !==. -/
def stringifyOpt : Option JValue → Option String
  | none => none
  | some v => some (stringify v)

/-- Field-path concatenation of extractStateModelStructure:
prefix ? prefix + '.' + key : key (the empty prefix is falsy). -/
def fullPath (pre key : String) : String :=
  if pre = "" then key else pre ++ "." ++ key

/-- The description of a leaf model field: the value itself when it is a
string, otherwise its JSON serialization. -/
def leafDesc : JValue → String
  | .str s => s
  | v => stringify v

mutual
/-- static extractStateModelStructure(stateModel, prefix): flattens a state
model into dot-joined field paths with descriptions.  Plain non-array objects
recurse; arrays and primitives are leaves. -/
def extractSMS : Fields → String → List (String × String)
  | [], _ => []
  | (k, v) :: rest, pre => extractEntry k v pre ++ extractSMS rest pre
/-- One entry of extractStateModelStructure's loop. -/
def extractEntry : String → JValue → String → List (String × String)
  | k, .obj sub, pre => extractSMS sub (fullPath pre k)
  | k, v, pre => [(fullPath pre k, leafDesc v)]
end

mutual
/-- The initializeStructure closure of mergeStateWithModel: a fresh object
mirroring the model's nesting with every leaf initialized to null. -/
def initializeStructure : Fields → Fields
  | [] => []
  | (k, v) :: rest => (k, initValue v) :: initializeStructure rest
/-- The initialized value of one model entry: a mirrored object for plain
non-array objects, null for every leaf. -/
def initValue : JValue → JValue
  | .obj sub => .obj (initializeStructure sub)
  | _ => .null
end

/-- The fallback half of mergeStateWithModel's loop body: preserve the current
state's value at the path when it is defined. -/
def mergeFallback (currentState : JValue) (merged : Fields) (path : String) : Fields :=
  match getNestedValue currentState path with
  | some c => setNestedValue merged path c
  | none => merged

/-- One iteration of mergeStateWithModel's loop: write the candidate's value
at the path when it is neither undefined nor null, otherwise fall back to the
current state's value, otherwise leave the initialized null. -/
def mergeField (updatedState currentState : JValue) (merged : Fields) (path : String) : Fields :=
  match getNestedValue updatedState path with
  | none => mergeFallback currentState merged path
  | some .null => mergeFallback currentState merged path
  | some v => setNestedValue merged path v

/-- static mergeStateWithModel(updatedState, stateModel, currentState). -/
def mergeStateWithModel (updatedState : JValue) (stateModel : Fields)
    (currentState : JValue) : Fields :=
  (extractSMS stateModel "").foldl
    (fun merged fld => mergeField updatedState currentState merged fld.1)
    (initializeStructure stateModel)

/-- The flattened leaf field paths of a state object (or of a state model):
the paths produced by extractStateModelStructure, descriptions dropped. -/
def statePaths (f : Fields) : List String :=
  (extractSMS f "").map Prod.fst

/-- The value that mergeStateWithModel ends up holding at a schema field
path: the candidate's value when defined and non-null, else the current
state's value when defined, else null. -/
def mergedValueAt (updatedState currentState : JValue) (path : String) : JValue :=
  match getNestedValue updatedState path with
  | none => (getNestedValue currentState path).getD .null
  | some .null => (getNestedValue currentState path).getD .null
  | some v => v

/-- A plain (non-array, non-null) object. -/
def isPlainObj : JValue → Bool
  | .obj _ => true
  | _ => false

/-- A key that contains no dot, so that split('.') recovers it intact. -/
def dotFree (s : String) : Bool := s.data.all (· ≠ '.')

/-- The top-level keys of an object. -/
def keysOf (f : Fields) : List String := f.map Prod.fst

mutual
/-- Well-formedness of a state model object: at every level the keys are
non-empty, dot-free and pairwise distinct.  This captures models coming from
parsed JSON (JavaScript objects never carry duplicate keys) whose field
names neither contain the path separator nor are empty, so that the
dot-joined paths produced by extractStateModelStructure split back into the
original key chains. -/
def wfModel : Fields → Bool
  | [] => true
  | (k, v) :: rest =>
      k ≠ "" && dotFree k && !(rest.any fun e => e.1 = k) && wfValue v && wfModel rest
/-- Well-formedness of one model entry's value. -/
def wfValue : JValue → Bool
  | .obj sub => wfModel sub
  | _ => true
end

mutual
/-- (Proof device) The split leaf field paths of a state model, as chains of
keys. -/
def modelChains : Fields → List (List String)
  | [] => []
  | (k, v) :: rest => entryChains k v ++ modelChains rest
/-- (Proof device) The split leaf field paths contributed by one entry. -/
def entryChains : String → JValue → List (List String)
  | k, .obj sub => (modelChains sub).map (k :: ·)
  | k, _ => [[k]]
end

mutual
/-- (Proof device) The model-shaped object whose leaf at each chain c under
the ambient position pre holds sigma (pre ++ c).  mergeStateWithModel's
result is such an object. -/
def buildF : Fields → (List String → JValue) → List String → Fields
  | [], _, _ => []
  | (k, v) :: rest, sigma, pre => (k, buildEntry k v sigma pre) :: buildF rest sigma pre
/-- (Proof device) One entry of a model-shaped object. -/
def buildEntry : String → JValue → (List String → JValue) → List String → JValue
  | k, .obj sub, sigma, pre => .obj (buildF sub sigma (pre ++ [k]))
  | k, _, sigma, pre => sigma (pre ++ [k])
end

/-- JavaScript String.trim on a character list. -/
def trimChars (l : List Char) : List Char :=
  ((l.dropWhile isJsWs).reverse.dropWhile isJsWs).reverse

/-- Strip the optional literal json tag after an opening fence. -/
def dropJsonTag : List Char → List Char
  | 'j' :: 's' :: 'o' :: 'n' :: rest => rest
  | l => l

/-- The replacement of the fence-opening pattern (three backticks, an
optional json tag, then greedy whitespace) with the empty string. -/
def stripLeadFence : List Char → List Char
  | '`' :: '`' :: '`' :: rest => (dropJsonTag rest).dropWhile isJsWs
  | l => l

/-- The replacement of the fence-closing pattern (an optional newline, three
backticks, trailing whitespace, end of string) with the empty string; when
the suffix is not present the text is unchanged. -/
def stripTrailFence (l : List Char) : List Char :=
  match l.reverse.dropWhile isJsWs with
  | '`' :: '`' :: '`' :: rest =>
      match rest with
      | '\n' :: rest2 => rest2.reverse
      | _ => rest.reverse
  | _ => l

/-- static cleanJsonResponse(jsonString): trim, strip a Markdown code fence
(optionally tagged json) when the text starts with one, and trim again. -/
def cleanJsonResponse (s : String) : String :=
  let cleaned := trimChars s.data
  let cleaned :=
    match cleaned with
    | '`' :: '`' :: '`' :: _ => stripTrailFence (stripLeadFence cleaned)
    | _ => cleaned
  ⟨trimChars cleaned⟩

/-- Hexadecimal digit value, for JSON unicode escapes. -/
def hexVal (c : Char) : Option Nat :=
  if 48 ≤ c.toNat ∧ c.toNat ≤ 57 then some (c.toNat - 48)
  else if 97 ≤ c.toNat ∧ c.toNat ≤ 102 then some (c.toNat - 87)
  else if 65 ≤ c.toNat ∧ c.toNat ≤ 70 then some (c.toNat - 55)
  else none

/-- JSON whitespace. -/
def isJsonWs (c : Char) : Bool := c = ' ' ∨ c = '\t' ∨ c = '\n' ∨ c = '\r'

/-- Skip JSON whitespace. -/
def skipJsonWs (l : List Char) : List Char := l.dropWhile isJsonWs

/-- Parse the body of a JSON string literal after the opening quote. -/
def parseStringBody : List Char → List Char → Option (String × List Char)
  | acc, '"' :: rest => some (⟨acc.reverse⟩, rest)
  | acc, '\\' :: esc :: rest =>
      match esc with
      | '"' => parseStringBody ('"' :: acc) rest
      | '\\' => parseStringBody ('\\' :: acc) rest
      | '/' => parseStringBody ('/' :: acc) rest
      | 'n' => parseStringBody ('\n' :: acc) rest
      | 't' => parseStringBody ('\t' :: acc) rest
      | 'r' => parseStringBody ('\r' :: acc) rest
      | 'b' => parseStringBody ('\x08' :: acc) rest
      | 'f' => parseStringBody ('\x0c' :: acc) rest
      | 'u' =>
          match rest with
          | a :: b :: c :: d :: rest2 =>
              match hexVal a, hexVal b, hexVal c, hexVal d with
              | some x, some y, some z, some w =>
                  parseStringBody (Char.ofNat (((x * 16 + y) * 16 + z) * 16 + w) :: acc) rest2
              | _, _, _, _ => none
          | _ => none
      | _ => none
  | acc, c :: rest => if c.toNat < 32 then none else parseStringBody (c :: acc) rest
  | _, [] => none

/-- Consume further decimal digits of a numeral. -/
def takeDigits : List Char → Nat → Nat × List Char
  | c :: rest, acc =>
      match digitVal c with
      | some d => takeDigits rest (acc * 10 + d)
      | none => (acc, c :: rest)
  | [], acc => (acc, [])

/-- Parse a JSON natural numeral (a leading zero stands alone). -/
def parseNatNum : List Char → Option (Nat × List Char)
  | '0' :: rest => some (0, rest)
  | c :: rest =>
      match digitVal c with
      | some d => some (takeDigits rest d)
      | none => none
  | [] => none

/-- Parse a JSON integer numeral.  Fractional and exponent parts are not
modelled: numbers are integers in this embedding. -/
def parseIntNum : List Char → Option (Int × List Char)
  | '-' :: rest => (parseNatNum rest).map fun p => (-(p.1 : Int), p.2)
  | l => (parseNatNum l).map fun p => ((p.1 : Int), p.2)

mutual
/-- Fuelled recursive-descent parse of one JSON value. -/
def parseValue : Nat → List Char → Option (JValue × List Char)
  | 0, _ => none
  | fuel + 1, l =>
      match skipJsonWs l with
      | '{' :: rest =>
          match skipJsonWs rest with
          | '}' :: rest2 => some (.obj [], rest2)
          | rest2 => (parseMembers fuel [] rest2).map fun p => (.obj p.1, p.2)
      | '[' :: rest =>
          match skipJsonWs rest with
          | ']' :: rest2 => some (.arr [], rest2)
          | rest2 => (parseElements fuel rest2).map fun p => (.arr p.1, p.2)
      | '"' :: rest => (parseStringBody [] rest).map fun p => (.str p.1, p.2)
      | 't' :: 'r' :: 'u' :: 'e' :: rest => some (.bool true, rest)
      | 'f' :: 'a' :: 'l' :: 's' :: 'e' :: rest => some (.bool false, rest)
      | 'n' :: 'u' :: 'l' :: 'l' :: rest => some (.null, rest)
      | l2 => (parseIntNum l2).map fun p => (.num p.1, p.2)

/-- Fuelled parse of object members (a key is expected next); repeated keys
overwrite in place, as JSON.parse assigns them to a JavaScript object. -/
def parseMembers : Nat → Fields → List Char → Option (Fields × List Char)
  | 0, _, _ => none
  | fuel + 1, acc, l =>
      match l with
      | '"' :: rest =>
          match parseStringBody [] rest with
          | some (k, r1) =>
              match skipJsonWs r1 with
              | ':' :: r2 =>
                  match parseValue fuel r2 with
                  | some (v, r3) =>
                      match skipJsonWs r3 with
                      | ',' :: r4 => parseMembers fuel (setKeyF acc k v) (skipJsonWs r4)
                      | '}' :: r4 => some (setKeyF acc k v, r4)
                      | _ => none
                  | none => none
              | _ => none
          | none => none
      | _ => none

/-- Fuelled parse of array elements. -/
def parseElements : Nat → List Char → Option (List JValue × List Char)
  | 0, _ => none
  | fuel + 1, l =>
      match parseValue fuel l with
      | some (v, r1) =>
          match skipJsonWs r1 with
          | ',' :: r2 => (parseElements fuel r2).map fun p => (v :: p.1, p.2)
          | ']' :: r2 => some ([v], r2)
          | _ => none
      | none => none
end

/-- JSON.parse: a single JSON value surrounded only by whitespace; none
models the thrown SyntaxError on malformed input. -/
def jsonParse (s : String) : Option JValue :=
  match parseValue (2 * s.data.length + 2) s.data with
  | some (v, rest) => if (skipJsonWs rest).isEmpty then some v else none
  | none => none

/-- static parseToolResult(toolResult): parse a string result as JSON with
fallback to the raw string; non-strings pass through. -/
def parseToolResult : JValue → JValue
  | .str s =>
      match jsonParse s with
      | some v => v
      | none => .str s
  | v => v

/-- Lower casing of a string (JavaScript toLowerCase, ASCII range). -/
def lowerStr (s : String) : String := ⟨s.data.map Char.toLower⟩

/-- Does the pattern start at the head of the list? -/
def startsRun : List Char → List Char → Bool
  | _, [] => true
  | [], _ :: _ => false
  | c :: rest, p :: ps => c = p && startsRun rest ps

/-- Does the pattern occur contiguously inside the list
(JavaScript String.includes)? -/
def hasRun : List Char → List Char → Bool
  | l, pat =>
      match l with
      | [] => pat.isEmpty
      | _ :: rest => startsRun l pat || hasRun rest pat

/-- JavaScript String.includes. -/
def strIncludes (s sub : String) : Bool := hasRun s.data sub.data

/-- Truthiness of a possibly-undefined value. -/
def jsTruthyOpt : Option JValue → Bool
  | none => false
  | some v => jsTruthy v

/-- Property access o.k on an arbitrary value: none models undefined, and
reading a property of null throws. -/
def jsGetProp : JValue → String → Except String (Option JValue)
  | .null, k => .error ("TypeError: cannot read properties of null (reading " ++ k ++ ")")
  | .obj f, k => .ok (getKeyF f k)
  | .arr l, k => .ok (arrIndex l k)
  | _, _ => .ok none

mutual
/-- JavaScript String(v) coercion, as used when a value becomes a property
key for the in operator. -/
def jsToKey : JValue → String
  | .str s => s
  | .num n => toString n
  | .bool true => "true"
  | .bool false => "false"
  | .null => "null"
  | .arr l => joinCommas l
  | .obj _ => "[object Object]"
/-- Array.prototype.toString: elements joined by commas. -/
def joinCommas : List JValue → String
  | [] => ""
  | [v] => elemStr v
  | v :: rest => elemStr v ++ "," ++ joinCommas rest
/-- One array element under String(): null prints as empty. -/
def elemStr : JValue → String
  | .null => ""
  | v => jsToKey v
end

/-- The object view of a value used with the in operator and indexing by the
schema keys: objects expose their fields, arrays their elements (under
decimal keys) and length; a truthy primitive makes the in operator throw. -/
def jsObjView : JValue → Except String Fields
  | .obj f => .ok f
  | .arr l =>
      .ok (("length", .num l.length) :: l.enum.map fun p => (toString p.1, p.2))
  | _ => .error "TypeError: cannot use in operator on a primitive"

/-- static validateAndExtractState(parsedResult, stateModel, state,
prevStateModelOnly, stateChangedProps, isFirstRun): copy the parsed output's
state value into the working state for every top-level model key (missing
keys become null, with no fallback to the previous state), compute the
changed keys by stringified comparison against prevStateModelOnly, and on a
first run whose computed change list is empty return every model key
instead.  The error case models the TypeError thrown (and caught by the
caller as a parse failure) on a null parse result or a truthy primitive
state value. -/
def validateAndExtractState (parsedResult : JValue) (stateModel : Fields)
    (state : Fields) (prevStateModelOnly : Fields)
    (stateChangedProps : List String) (isFirstRun : Bool) :
    Except String (Fields × List String) := do
  let _ := stateChangedProps
  let stProp ← jsGetProp parsedResult "state"
  let newFields ← jsObjView (jsOr (stProp.getD .null) (.obj []))
  let state2 := (keysOf stateModel).foldl
    (fun st k => setKeyF st k ((getKeyF newFields k).getD .null)) state
  let changed := (keysOf stateModel).filter fun k =>
    stringifyOpt (getKeyF prevStateModelOnly k) ≠ stringifyOpt (getKeyF state2 k)
  if isFirstRun ∧ changed = [] then
    return (state2, keysOf stateModel)
  else
    return (state2, changed)

/-- An external tool: a name, a description, and an invoke capability that
may throw (the error carries the thrown message). -/
structure Tool where
  name : String
  description : String
  invoke : JValue → Except String JValue

/-- One record pushed to the toolResults list: the destructured tool_name and
state_field of the request, and the invocation's result or caught error
message. -/
structure ToolCallOutcome where
  tool_name : Option JValue
  state_field : Option JValue
  outcome : Except String JValue

/-- The catalog search predicate of invokeTools:
t.name === tool_name || t.name.toLowerCase() === tool_name.toLowerCase(). -/
def matchesName (t : Tool) (n : String) : Bool :=
  t.name = n || lowerStr t.name = lowerStr n

/-- The code's tool resolution: one scan of the catalog with the disjunctive
predicate, returning the first tool that matches exactly or
case-insensitively. -/
def findTool (agentTools : List Tool) (n : String) : Option Tool :=
  agentTools.find? (matchesName · n)

/-- Modelled from the spec (for comparison with findTool): resolve the
tool name by exact match against the whole catalog first, then by
case-insensitive match. -/
def specResolveTool (agentTools : List Tool) (n : String) : Option Tool :=
  match agentTools.find? fun t => t.name = n with
  | some t => some t
  | none => agentTools.find? fun t => lowerStr t.name = lowerStr n

/-- Destructuring const { tool_name, reason, input_params, state_field }
from a model-proposed request (a TypeError on null). -/
def destructReq : JValue →
    Except String (Option JValue × Option JValue × Option JValue × Option JValue)
  | .null => .error "TypeError: cannot destructure properties of null"
  | .obj f =>
      .ok (getKeyF f "tool_name", getKeyF f "reason",
           getKeyF f "input_params", getKeyF f "state_field")
  | _ => .ok (none, none, none, none)

/-- The fall-back targeting condition: the tool name, or the stated reason,
contains the substring steps case-insensitively.  Throws when reason is a
truthy non-string (no toLowerCase method); the optional chaining makes a
null or missing reason simply falsy. -/
def stepsHeuristic (toolName : String) (reason : Option JValue) : Except String Bool :=
  if strIncludes (lowerStr toolName) "steps" then .ok true
  else
    match reason with
    | none => .ok false
    | some .null => .ok false
    | some (.str r) => .ok (strIncludes (lowerStr r) "steps")
    | some _ => .error "TypeError: reason.toLowerCase is not a function"

/-- static invokeTools(toolsToInvoke, agentTools, stateModel, state,
stateChangedProps): resolve, invoke and absorb each model-proposed tool
invocation in order.  Unmatched names are skipped silently; a tool that
throws is recorded as an error entry and the batch continues; an uncaught
TypeError (for example resolving a request without a string tool_name
against a non-empty catalog) aborts the whole batch. -/
def invokeTools (toolsToInvoke : List JValue) (agentTools : List Tool)
    (stateModel : Fields) (state : Fields) (stateChangedProps : List String) :
    Except String (List JValue × List ToolCallOutcome × Fields × List String) :=
  match toolsToInvoke with
  | [] => .ok ([], [], state, stateChangedProps)
  | req :: rest => do
      let (tn, reason, ip, sf) ← destructReq req
      let found : Option (Tool × String) ←
        match agentTools with
        | [] => Except.ok none
        | _ :: _ =>
            match tn with
            | some (.str n) => Except.ok (((agentTools.find? (matchesName · n)).map fun t => (t, n)))
            | _ => Except.error "TypeError: tool_name.toLowerCase is not a function"
      match found with
      | none => invokeTools rest agentTools stateModel state stateChangedProps
      | some (t, n) =>
          match t.invoke (jsOr (ip.getD .null) (.obj [])) with
          | .error msg =>
              (invokeTools rest agentTools stateModel state stateChangedProps).map
                fun r => (r.1, ⟨tn, sf, .error msg⟩ :: r.2.1, r.2.2)
          | .ok toolResult => do
              let target : Option JValue ←
                if !(jsTruthyOpt sf) then
                  (stepsHeuristic n reason).map fun heur =>
                    if heur then some (.str "task_steps") else sf
                else .ok sf
              let (state2, changed2) :=
                if jsTruthyOpt target ∧ jsToKey (target.getD .null) ∈ keysOf stateModel then
                  let key := jsToKey (target.getD .null)
                  let parsed := parseToolResult toolResult
                  if stringifyOpt (getKeyF state key) ≠ some (stringify parsed) then
                    (setKeyF state key parsed,
                     if key ∈ stateChangedProps then stateChangedProps
                     else stateChangedProps ++ [key])
                  else (state, stateChangedProps)
                else (state, stateChangedProps)
              (invokeTools rest agentTools stateModel state2 changed2).map
                fun r => (.str n :: r.1, ⟨tn, sf, .ok toolResult⟩ :: r.2.1, r.2.2)

/-- Apply a merged state back to the working state key by key (the loop that
follows every post-tool reconciliation merge): a key is overwritten only when
its stringification differs, and each newly changed key is appended to the
changeset once. -/
def applyMergeUpdates (stateModel : Fields) (state : Fields) (changed : List String)
    (candidate : JValue) : Fields × List String :=
  let merged := mergeStateWithModel candidate stateModel (.obj state)
  (keysOf stateModel).foldl
    (fun acc k =>
      if stringifyOpt (getKeyF acc.1 k) ≠ stringifyOpt (getKeyF merged k) then
        (setKeyF acc.1 k ((getKeyF merged k).getD .null),
         if k ∈ acc.2 then acc.2 else acc.2 ++ [k])
      else acc)
    (state, changed)

/-- The double-prompt post-tool state update (the guarded try block, lines
985-1005 of StatefulAIAgent): parse the reconciliation text, merge it
against the schema and apply the per-key updates; any parse failure is
caught, leaving state and changeset untouched. -/
def postToolStatePhase (stateModel : Fields) (raw : String) (state : Fields)
    (changed : List String) : Fields × List String :=
  match jsonParse (cleanJsonResponse raw) with
  | none => (state, changed)
  | some updatedState => applyMergeUpdates stateModel state changed updatedState

/-- The double-prompt branch after tools fired (lines 977-1044): the
best-effort post-tool state call followed by the separate
response-generation call, whose text becomes the response. -/
def afterToolsDouble (stateModel : Fields) (postRaw respRaw : String)
    (state : Fields) (changed : List String) : Fields × List String × JValue :=
  let r := postToolStatePhase stateModel postRaw state changed
  (r.1, r.2, .str respRaw)

/-- The single-prompt combined post-tool call (the guarded try block, lines
745-771): parse, merge the state member when truthy, take the response
member when truthy; any thrown error (parse failure, property access on a
null parse) is caught, leaving state, changeset and response untouched. -/
def singlePostToolPhase (stateModel : Fields) (raw : String) (state : Fields)
    (changed : List String) (response : JValue) : Fields × List String × JValue :=
  match jsonParse (cleanJsonResponse raw) with
  | none => (state, changed, response)
  | some parsed =>
      match jsGetProp parsed "state" with
      | .error _ => (state, changed, response)
      | .ok stProp =>
          let r :=
            if jsTruthyOpt stProp then
              applyMergeUpdates stateModel state changed (stProp.getD .null)
            else (state, changed)
          let resp :=
            match jsGetProp parsed "response" with
            | .ok rProp => if jsTruthyOpt rProp then rProp.getD .null else response
            | .error _ => response
          (r.1, r.2, resp)

/-- prevStateModelOnly (lines 499-501): every model key's previous value,
null when the key is absent from the stored state. -/
def prevModelOnly (stateModel : Fields) (prevState : Fields) : Fields :=
  (keysOf stateModel).map fun k => (k, (getKeyF prevState k).getD .null)

/-- isFirstRun (lines 495-497): no model key occurs in the stored state. -/
def isFirstRunB (stateModel : Fields) (prevState : Fields) : Bool :=
  !((keysOf stateModel).any fun k => (getKeyF prevState k).isSome)

/-- The initial extraction round as wired in execute (lines 495-508 with
630-637): compute isFirstRun and prevStateModelOnly from the stored state,
then validate and extract the parsed model output into an empty working
state. -/
def firstRoundExtract (stateModel : Fields) (prevState : Fields) (parsed : JValue) :
    Except String (Fields × List String) :=
  validateAndExtractState parsed stateModel [] (prevModelOnly stateModel prevState)
    [] (isFirstRunB stateModel prevState)

/-- tools_to_invoke extraction (lines 645-651):
parsedResult.tools_to_invoke || [], forced to [] when not an array. -/
def extractToolsToInvoke (parsed : JValue) : Except String (List JValue) := do
  let p ← jsGetProp parsed "tools_to_invoke"
  match jsOr (p.getD .null) (.arr []) with
  | .arr l => .ok l
  | _ => .ok []

/-- The first-round try block shared by the two state-tracking modes (lines
626-655 and 887-910): validate-and-extract, read the response member (single
mode without tools only) and the tools_to_invoke list; any error thrown
inside becomes the round's fatal parse-failure message. -/
def firstRoundTry (sm : Fields) (prevState : Fields) (parsed : JValue)
    (wantResponse : Bool) (useAgent : Bool) (failMsg : String) :
    Except String (Fields × List String × JValue × List JValue) :=
  (do
    let (state1, changed1) ← firstRoundExtract sm prevState parsed
    let respProp ← if wantResponse then jsGetProp parsed "response" else .ok none
    let response0 := if wantResponse then jsOr (respProp.getD .null) (.str "") else .str ""
    let tools ← if useAgent then extractToolsToInvoke parsed else .ok []
    .ok (state1, changed1, response0, tools)).mapError fun _ => failMsg

/-- The node parameters of one Stateful AI Agent interaction (the state
model arrives already parsed from its JSON parameter). -/
structure AgentParams where
  userMessage : String
  stateModel : Option Fields
  conversationHistory : Bool
  singlePromptStateTracking : Bool

/-- The observable outcome of one interaction: the output fields plus the
serialized store writes that were performed. -/
structure AgentOutput where
  response : JValue
  state : Fields
  prevState : Fields
  stateChangedProps : List String
  writes : List String

/-- The main phase of execute: one of the three branches (single-prompt
state tracking, double-prompt state tracking, plain response), producing the
response, working state and changeset before the history append.  llm i is
the raw text of the i-th model call of the interaction. -/
def mainPhase (p : AgentParams) (llm : Nat → String) (prevState : Fields)
    (agentTools : List Tool) : Except String (JValue × Fields × List String) :=
  let useAgent := !agentTools.isEmpty
  match p.stateModel with
  | some sm =>
      if p.singlePromptStateTracking then
        match jsonParse (cleanJsonResponse (llm 0)) with
        | none => .error "Failed to parse combined JSON"
        | some parsed => do
            let (state1, changed1, response0, toolsToInvoke) ←
              firstRoundTry sm prevState parsed (!useAgent) useAgent
                "Failed to parse combined JSON"
            if toolsToInvoke.length > 0 then do
              let (invokedNames, _toolResults, state2, changed2) ←
                invokeTools toolsToInvoke agentTools sm state1 changed1
              if invokedNames.length > 0 then
                let r := singlePostToolPhase sm (llm 1) state2 changed2 response0
                .ok (r.2.2, r.1, r.2.1)
              else
                .ok (response0, state2, changed2)
            else if useAgent then
              .ok (.str (llm 1), state1, changed1)
            else
              .ok (response0, state1, changed1)
      else
        match jsonParse (cleanJsonResponse (llm 0)) with
        | none => .error "Failed to parse state analysis JSON"
        | some parsed => do
            let (state1, changed1, _response0, toolsToInvoke) ←
              firstRoundTry sm prevState parsed false useAgent
                "Failed to parse state analysis JSON"
            if toolsToInvoke.length > 0 then do
              let (invokedNames, _toolResults, state2, changed2) ←
                invokeTools toolsToInvoke agentTools sm state1 changed1
              if invokedNames.length > 0 then
                let r := afterToolsDouble sm (llm 1) (llm 2) state2 changed2
                .ok (r.2.2, r.1, r.2.1)
              else
                .ok (.str (llm 1), state2, changed2)
            else
              .ok (.str (llm 1), state1, changed1)
  | none => .ok (.str (llm 0), [], [])

/-- The common tail of execute (lines 1209-1231): append the user and
assistant turns to the conversation history (when enabled), mark
conversation_history changed, and persist the state through the store's set
exactly when the changeset is non-empty. -/
def finishPhase (p : AgentParams) (prevState : Fields)
    (main : JValue × Fields × List String) : Except String AgentOutput := do
  let (response, state, changed) := main
  let histVal : Option JValue :=
    if p.conversationHistory then
      some (jsOr ((getKeyF prevState "conversation_history").getD .null) (.arr []))
    else none
  let (stateH, changedH) ←
    match histVal with
    | none => Except.ok (state, changed)
    | some hv =>
        if jsTruthy hv then
          match hv with
          | .arr l =>
              let l2 := l ++
                [.obj [("role", .str "user"), ("message", .str p.userMessage)],
                 .obj [("role", .str "assistant"), ("message", response)]]
              Except.ok (setKeyF state "conversation_history" (.arr l2),
                if "conversation_history" ∈ changed then changed
                else changed ++ ["conversation_history"])
          | _ => Except.error "TypeError: conversationHistoryValue.push is not a function"
        else Except.ok (state, changed)
  let writes : List String :=
    if (p.stateModel.isSome || p.conversationHistory) ∧ changedH ≠ [] then
      [stringify (.obj stateH)]
    else []
  .ok ⟨response, stateH, prevState, changedH, writes⟩

/-- The execute method of the Stateful AI Agent node for one input item,
with the external collaborators as oracles: llm i is the text returned by
the i-th model call, storeGet the object returned by the state workflow's
get operation, agentTools the connected tools.  Prompt assembly is not
modelled (the model's replies are oracle inputs). -/
def executeAgent (p : AgentParams) (llm : Nat → String) (storeGet : Fields)
    (agentTools : List Tool) : Except String AgentOutput := do
  let prevState : Fields :=
    if p.stateModel.isSome || p.conversationHistory then storeGet else []
  let main ← mainPhase p llm prevState agentTools
  finishPhase p prevState main

/-- (Proof device) The value mergeStateWithModel's loop writes at a leaf
chain, when it writes one: the candidate's value when defined and non-null,
else the current state's value when defined. -/
def chainChoice (updatedState currentState : JValue) (c : List String) : Option JValue :=
  match getPartsO (some updatedState) c with
  | none => getPartsO (some currentState) c
  | some .null => getPartsO (some currentState) c
  | some v => some v

/-- (Proof device) The final value at a leaf chain: the written value, or
the initialized null when nothing is written. -/
def chainSigma (updatedState currentState : JValue) (c : List String) : JValue :=
  (chainChoice updatedState currentState c).getD .null

/-- (Proof device) mergeStateWithModel's loop body at the level of split
chains. -/
def mergeFieldC (updatedState currentState : JValue) (merged : Fields)
    (c : List String) : Fields :=
  match chainChoice updatedState currentState c with
  | some v => setPartsF merged c v
  | none => merged

/-- (Proof device) The leaf assignment after folding the loop over a list of
chains. -/
def applyUpds (updatedState currentState : JValue) :
    List (List String) → (List String → JValue) → (List String → JValue)
  | [], s => s
  | c :: rest, s =>
      applyUpds updatedState currentState rest fun q =>
        match chainChoice updatedState currentState c with
        | some v => if q = c then v else s q
        | none => s q

/-! ### Association-list and path lemmas -/

theorem getKeyF_setKeyF_same (f : Fields) (k : String) (v : JValue) :
    getKeyF (setKeyF f k v) k = some v := by
  induction f with
  | nil => simp [setKeyF, getKeyF]
  | cons e rest ih =>
      obtain ⟨k0, w⟩ := e
      by_cases h : k0 = k
      · subst h; simp [setKeyF, getKeyF]
      · simp [setKeyF, getKeyF, h, ih]

theorem getKeyF_setKeyF_other (f : Fields) (k k' : String) (v : JValue)
    (h : k ≠ k') : getKeyF (setKeyF f k v) k' = getKeyF f k' := by
  induction f with
  | nil => simp [setKeyF, getKeyF, h]
  | cons e rest ih =>
      obtain ⟨k0, w⟩ := e
      by_cases h0 : k0 = k
      · subst h0; simp [setKeyF, getKeyF, h]
      · simp [setKeyF, getKeyF, h0, ih]

theorem dotFree_iff (s : String) : dotFree s = true ↔ '.' ∉ s.data := by
  simp only [dotFree, List.all_eq_true, decide_eq_true_eq]
  constructor
  · intro h hm; exact (h '.' hm) rfl
  · intro h c hc he; exact h (he ▸ hc)

theorem splitChars_no_dot (l : List Char) (h : '.' ∉ l) : splitChars l = [l] := by
  induction l with
  | nil => rfl
  | cons c rest ih =>
      have h1 : ¬(c = '.') := fun hc => h (hc ▸ List.mem_cons_self _ _)
      have h2 : '.' ∉ rest := fun hm => h (List.mem_cons_of_mem _ hm)
      simp [splitChars, h1, ih h2]

theorem splitChars_append_dot (a b : List Char) (h : '.' ∉ a) :
    splitChars (a ++ '.' :: b) = a :: splitChars b := by
  induction a with
  | nil => simp [splitChars]
  | cons c rest ih =>
      have h1 : ¬(c = '.') := fun hc => h (hc ▸ List.mem_cons_self _ _)
      have h2 : '.' ∉ rest := fun hm => h (List.mem_cons_of_mem _ hm)
      simp [splitChars, h1, ih h2]

theorem data_append (a b : String) : (a ++ b).data = a.data ++ b.data := by
  cases a; cases b; rfl

theorem strAppend_assoc (a b c : String) : a ++ b ++ c = a ++ (b ++ c) := by
  cases a; cases b; cases c
  show String.mk _ = String.mk _
  simp [data_append, List.append_assoc]

theorem splitDots_no_dot (s : String) (h : dotFree s = true) : splitDots s = [s] := by
  simp [splitDots, splitChars_no_dot s.data ((dotFree_iff s).mp h)]

theorem joinDots_ne_empty (c : List String) (hne : c ≠ [])
    (h : ∀ k ∈ c, k ≠ "") : joinDots c ≠ "" := by
  match c with
  | [k] => simpa [joinDots] using h k (by simp)
  | k :: k2 :: rest =>
      intro hc
      have hd := congrArg String.data hc
      simp [joinDots, data_append] at hd

theorem splitDots_joinDots (c : List String) (hne : c ≠ [])
    (h : ∀ k ∈ c, k ≠ "" ∧ dotFree k = true) : splitDots (joinDots c) = c := by
  match c with
  | [k] => exact splitDots_no_dot k (h k (by simp)).2
  | k :: k2 :: rest =>
      have hd : '.' ∉ k.data := (dotFree_iff k).mp (h k (by simp)).2
      have hdata : (joinDots (k :: k2 :: rest)).data
          = k.data ++ '.' :: (joinDots (k2 :: rest)).data := by
        simp [joinDots, data_append]
      have ih := splitDots_joinDots (k2 :: rest) (by simp)
        (fun x hx => h x (List.mem_cons_of_mem _ hx))
      simp only [splitDots] at ih ⊢
      rw [hdata, splitChars_append_dot _ _ hd]
      simp [ih]

theorem joinDots_append_one (c : List String) (k : String) (hne : c ≠ []) :
    joinDots (c ++ [k]) = joinDots c ++ "." ++ k := by
  match c with
  | [a] => rfl
  | a :: b :: rest =>
      have ih := joinDots_append_one (b :: rest) k (by simp)
      show a ++ "." ++ joinDots ((b :: rest) ++ [k]) = a ++ "." ++ joinDots (b :: rest) ++ "." ++ k
      rw [ih]
      simp [strAppend_assoc]

theorem fullPath_joinDots (preC : List String) (k : String)
    (h : ∀ x ∈ preC, x ≠ "") : fullPath (joinDots preC) k = joinDots (preC ++ [k]) := by
  match preC with
  | [] => rfl
  | a :: rest =>
      have hne : joinDots (a :: rest) ≠ "" := joinDots_ne_empty _ (by simp) h
      simp only [fullPath, hne, if_false]
      exact (joinDots_append_one (a :: rest) k (by simp)).symm

/-! ### Model chains and the extract bridge -/

theorem wf_cons {k : String} {v : JValue} {rest : Fields}
    (h : wfModel ((k, v) :: rest) = true) :
    k ≠ "" ∧ dotFree k = true ∧ (∀ e ∈ rest, e.1 ≠ k) ∧ wfValue v = true ∧
      wfModel rest = true := by
  simp only [wfModel, Bool.and_eq_true, Bool.not_eq_true', List.any_eq_false,
    decide_eq_true_eq, decide_eq_false_iff_not, ne_eq] at h
  exact ⟨h.1.1.1.1, h.1.1.1.2, h.1.1.2, h.1.2, h.2⟩

theorem entry_chains_shape (k : String) (v : JValue) :
    ∀ c ∈ entryChains k v, ∃ c', c = k :: c' := by
  match v with
  | .obj sub =>
      intro c hc
      simp [entryChains] at hc
      obtain ⟨c', _, hcc⟩ := hc
      exact ⟨c', hcc.symm⟩
  | .null | .bool _ | .num _ | .str _ | .arr _ =>
      intro c hc
      simp [entryChains] at hc
      exact ⟨[], hc⟩

theorem chains_shape (m : Fields) :
    ∀ c ∈ modelChains m, ∃ k c', c = k :: c' ∧ k ∈ keysOf m := by
  induction m with
  | nil => simp [modelChains]
  | cons e rest ih =>
      obtain ⟨k, v⟩ := e
      intro c hc
      simp only [modelChains, List.mem_append] at hc
      rcases hc with hc | hc
      · obtain ⟨c', hcc⟩ := entry_chains_shape k v c hc
        exact ⟨k, c', hcc, by simp [keysOf]⟩
      · obtain ⟨k', c', hcc, hk⟩ := ih c hc
        exact ⟨k', c', hcc, by simp [keysOf] at hk ⊢; exact Or.inr hk⟩

mutual
theorem chains_nodup (m : Fields) (hwf : wfModel m = true) :
    (modelChains m).Nodup := by
  match m with
  | [] => simp [modelChains]
  | (k, v) :: rest =>
      have hw := wf_cons hwf
      simp only [modelChains]
      refine List.Nodup.append (entry_chains_nodup k v hw.2.2.2.1)
        (chains_nodup rest hw.2.2.2.2) ?_
      intro c hc1 hc2
      obtain ⟨c', hcc⟩ := entry_chains_shape k v c hc1
      obtain ⟨k', c'', hcc', hk'⟩ := chains_shape rest c hc2
      rw [hcc] at hcc'
      have hkk : k' = k := by injection hcc'.symm
      simp [keysOf] at hk'
      obtain ⟨w, hw'⟩ := hk'
      exact hw.2.2.1 (k', w) hw' hkk
theorem entry_chains_nodup (k : String) (v : JValue) (hwf : wfValue v = true) :
    (entryChains k v).Nodup := by
  match v with
  | .obj sub =>
      simp only [entryChains]
      exact (chains_nodup sub hwf).map fun a b hab => by injection hab
  | .null | .bool _ | .num _ | .str _ | .arr _ => simp [entryChains]
end

mutual
theorem extract_map_split (m : Fields) (preC : List String)
    (hwf : wfModel m = true) (hpre : ∀ x ∈ preC, x ≠ "" ∧ dotFree x = true) :
    (extractSMS m (joinDots preC)).map (fun e => splitDots e.1)
      = (modelChains m).map (preC ++ ·) := by
  match m with
  | [] => simp [extractSMS, modelChains]
  | (k, v) :: rest =>
      have hw := wf_cons hwf
      simp only [extractSMS, modelChains, List.map_append]
      rw [extract_entry_map_split k v preC hw.1 hw.2.1 hw.2.2.2.1 hpre,
        extract_map_split rest preC hw.2.2.2.2 hpre]
theorem extract_entry_map_split (k : String) (v : JValue) (preC : List String)
    (hk : k ≠ "") (hdf : dotFree k = true) (hwf : wfValue v = true)
    (hpre : ∀ x ∈ preC, x ≠ "" ∧ dotFree x = true) :
    (extractEntry k v (joinDots preC)).map (fun e => splitDots e.1)
      = (entryChains k v).map (preC ++ ·) := by
  have hext : ∀ x ∈ preC ++ [k], x ≠ "" ∧ dotFree x = true := by
    intro x hx
    rcases List.mem_append.mp hx with hx | hx
    · exact hpre x hx
    · simp at hx; subst hx; exact ⟨hk, hdf⟩
  match v with
  | .obj sub =>
      show (extractSMS sub (fullPath (joinDots preC) k)).map (fun e => splitDots e.1) = _
      rw [fullPath_joinDots preC k (fun x hx => (hpre x hx).1),
        extract_map_split sub (preC ++ [k]) hwf hext]
      simp [entryChains, List.map_map, Function.comp_def]
  | .null | .bool _ | .num _ | .str _ | .arr _ =>
      show [(fullPath (joinDots preC) k, _)].map (fun e => splitDots e.1) = _
      rw [List.map_singleton]
      show [splitDots (fullPath (joinDots preC) k)] = _
      rw [fullPath_joinDots preC k (fun x hx => (hpre x hx).1),
        splitDots_joinDots (preC ++ [k]) (by simp) hext]
      simp [entryChains]
end

theorem extract_split_eq_chains (m : Fields) (hwf : wfModel m = true) :
    (extractSMS m "").map (fun e => splitDots e.1) = modelChains m := by
  have h := extract_map_split m [] hwf (by simp)
  simpa [joinDots] using h


/-! ### Building model-shaped objects -/

mutual
theorem init_eq_buildF (m : Fields) (pre : List String) :
    initializeStructure m = buildF m (fun _ => JValue.null) pre := by
  match m with
  | [] => rfl
  | (k, v) :: rest =>
      simp [initializeStructure, buildF, init_eq_buildF rest pre,
        initValue_eq_buildEntry k v pre]
theorem initValue_eq_buildEntry (k : String) (v : JValue) (pre : List String) :
    initValue v = buildEntry k v (fun _ => JValue.null) pre := by
  match v with
  | .obj sub => simp [initValue, buildEntry, init_eq_buildF sub (pre ++ [k])]
  | .null | .bool _ | .num _ | .str _ | .arr _ => rfl
end

mutual
theorem buildF_congr (m : Fields) (s1 s2 : List String → JValue) (pre : List String)
    (h : ∀ c ∈ modelChains m, s1 (pre ++ c) = s2 (pre ++ c)) :
    buildF m s1 pre = buildF m s2 pre := by
  match m with
  | [] => rfl
  | (k, v) :: rest =>
      simp only [buildF, List.cons.injEq]
      constructor
      · simp only [Prod.mk.injEq, true_and]
        exact buildEntry_congr k v s1 s2 pre fun c hc =>
          h c (by simp [modelChains, hc])
      · exact buildF_congr rest s1 s2 pre fun c hc =>
          h c (by simp [modelChains, hc])
theorem buildEntry_congr (k : String) (v : JValue) (s1 s2 : List String → JValue)
    (pre : List String)
    (h : ∀ c ∈ entryChains k v, s1 (pre ++ c) = s2 (pre ++ c)) :
    buildEntry k v s1 pre = buildEntry k v s2 pre := by
  match v with
  | .obj sub =>
      simp only [buildEntry]
      rw [buildF_congr sub s1 s2 (pre ++ [k]) fun c hc => by
        have := h (k :: c) (by simp [entryChains]; exact hc)
        simpa [List.append_assoc] using this]
  | .null | .bool _ | .num _ | .str _ | .arr _ =>
      simpa [buildEntry] using h [k] (by simp [entryChains])
end

theorem getKeyF_buildF_mem (m : Fields) (s : List String → JValue)
    (pre : List String) (k : String) (v : JValue)
    (hm : (k, v) ∈ m) (hfirst : ∀ e ∈ m, e.1 = k → e = (k, v)) :
    getKeyF (buildF m s pre) k = some (buildEntry k v s pre) := by
  induction m with
  | nil => simp at hm
  | cons e rest ih =>
      obtain ⟨k0, v0⟩ := e
      by_cases hk : k0 = k
      · subst hk
        have := hfirst (k0, v0) (by simp) rfl
        have hv : v0 = v := by injection this with h1 h2
        subst hv
        simp [buildF, getKeyF]
      · simp only [buildF, getKeyF, hk, if_false]
        rcases List.mem_cons.mp hm with he | hm'
        · exact absurd (congrArg Prod.fst he).symm hk
        · exact ih hm' fun e he' hk' => hfirst e (List.mem_cons_of_mem _ he') hk'

theorem getKeyF_buildF_not_mem (m : Fields) (s : List String → JValue)
    (pre : List String) (k : String) (hk : k ∉ keysOf m) :
    getKeyF (buildF m s pre) k = none := by
  induction m with
  | nil => rfl
  | cons e rest ih =>
      obtain ⟨k0, v0⟩ := e
      have h0 : ¬(k0 = k) := fun h => hk (by simp [keysOf, h])
      simp only [buildF, getKeyF, h0, if_false]
      exact ih fun h => hk (by simp [keysOf] at h ⊢; exact Or.inr h)


/-! ### Reading and writing model-shaped objects at leaf chains -/

theorem append_cons_ne (pre : List String) (a b : String) (x y : List String)
    (h : ¬(a = b)) : pre ++ a :: x ≠ pre ++ b :: y := by
  intro he
  have := List.append_cancel_left he
  injection this with h1 _
  exact h h1

mutual
theorem getParts_buildF (m : Fields) (s : List String → JValue) (pre : List String)
    (c : List String) (hwf : wfModel m = true) (hc : c ∈ modelChains m) :
    getPartsO (some (.obj (buildF m s pre))) c = some (s (pre ++ c)) := by
  match m with
  | [] => simp [modelChains] at hc
  | (k, v) :: rest =>
      have hw := wf_cons hwf
      simp only [modelChains, List.mem_append] at hc
      rcases hc with hc | hc
      · obtain ⟨c', rfl⟩ := entry_chains_shape k v c hc
        show getPartsO (some (.obj ((k, buildEntry k v s pre) :: buildF rest s pre)))
            (k :: c') = _
        simp only [getPartsO, isTraversable, if_true, jsIndex, getKeyF, if_pos rfl]
        exact getParts_entry k v s pre c' hw.2.2.2.1 hc
      · obtain ⟨k', c', rfl, hk'⟩ := chains_shape rest c hc
        have hkk : ¬(k = k') := by
          intro h
          rw [h] at hw
          simp [keysOf] at hk'
          obtain ⟨w, hw'⟩ := hk'
          exact hw.2.2.1 (k', w) hw' rfl
        show getPartsO (some (.obj ((k, buildEntry k v s pre) :: buildF rest s pre)))
            (k' :: c') = _
        simp only [getPartsO, isTraversable, if_true, jsIndex, getKeyF, hkk, if_false]
        exact getParts_buildF rest s pre (k' :: c') hw.2.2.2.2 hc
theorem getParts_entry (k : String) (v : JValue) (s : List String → JValue)
    (pre : List String) (c' : List String) (hwf : wfValue v = true)
    (hc : (k :: c') ∈ entryChains k v) :
    getPartsO (some (buildEntry k v s pre)) c' = some (s (pre ++ k :: c')) := by
  match v with
  | .obj sub =>
      simp only [entryChains, List.mem_map] at hc
      obtain ⟨c0, hc0, he⟩ := hc
      have hce : c0 = c' := by injection he
      rw [hce] at hc0
      show getPartsO (some (.obj (buildF sub s (pre ++ [k])))) c' = _
      rw [getParts_buildF sub s (pre ++ [k]) c' hwf hc0]
      simp
  | .null | .bool _ | .num _ | .str _ | .arr _ =>
      simp only [entryChains, List.mem_singleton, List.cons.injEq, true_and] at hc
      have hce : c' = [] := by
        cases hc' : c' with
        | nil => rfl
        | cons a b => rw [hc'] at hc; simp at hc
      subst hce
      rfl
end

theorem setPartsF_skip (k0 : String) (w0 : JValue) (f : Fields) (k' : String)
    (c'' : List String) (w : JValue) (h : ¬(k0 = k')) :
    setPartsF ((k0, w0) :: f) (k' :: c'') w = (k0, w0) :: setPartsF f (k' :: c'') w := by
  cases c'' with
  | nil => simp [setPartsF, setKeyF, h]
  | cons x xs =>
      have hset : ∀ y, setKeyF ((k0, w0) :: f) k' y = (k0, w0) :: setKeyF f k' y := by
        intro y; simp [setKeyF, h]
      conv_lhs => rw [setPartsF]
      conv_rhs => rw [setPartsF]
      simp only [getKeyF, h, if_false]
      cases hg : getKeyF f k' with
      | none => simp [hset]
      | some gv => cases gv <;> simp [hset]

mutual
theorem setParts_buildF (m : Fields) (s : List String → JValue) (pre : List String)
    (c : List String) (w : JValue) (hwf : wfModel m = true) (hc : c ∈ modelChains m) :
    setPartsF (buildF m s pre) c w
      = buildF m (fun q => if q = pre ++ c then w else s q) pre := by
  match m with
  | [] => simp [modelChains] at hc
  | (k, v) :: rest =>
      have hw := wf_cons hwf
      simp only [modelChains, List.mem_append] at hc
      rcases hc with hc | hc
      · obtain ⟨c', rfl⟩ := entry_chains_shape k v c hc
        show setPartsF ((k, buildEntry k v s pre) :: buildF rest s pre) (k :: c') w = _
        rw [setParts_entry k v s pre c' w (buildF rest s pre) hw.2.2.2.1 hc]
        have htail : buildF rest s pre
            = buildF rest (fun q => if q = pre ++ k :: c' then w else s q) pre := by
          refine buildF_congr rest s _ pre fun c0 hc0 => ?_
          obtain ⟨k0, c0', rfl, hk0⟩ := chains_shape rest c0 hc0
          have hne : ¬(k0 = k) := by
            intro he
            rw [he] at hk0
            simp [keysOf] at hk0
            obtain ⟨ww, hww⟩ := hk0
            exact hw.2.2.1 (k, ww) hww rfl
          rw [if_neg (append_cons_ne pre k0 k c0' c' hne)]
        simp only [buildF]
        rw [← htail]
      · obtain ⟨k', c', rfl, hk'⟩ := chains_shape rest c hc
        have hkk : ¬(k = k') := by
          intro h
          rw [h] at hw
          simp [keysOf] at hk'
          obtain ⟨ww, hww⟩ := hk'
          exact hw.2.2.1 (k', ww) hww rfl
        show setPartsF ((k, buildEntry k v s pre) :: buildF rest s pre) (k' :: c') w = _
        rw [setPartsF_skip k (buildEntry k v s pre) (buildF rest s pre) k' c' w hkk,
          setParts_buildF rest s pre (k' :: c') w hw.2.2.2.2 hc]
        have hhead : buildEntry k v s pre
            = buildEntry k v (fun q => if q = pre ++ k' :: c' then w else s q) pre := by
          refine buildEntry_congr k v s _ pre fun c0 hc0 => ?_
          obtain ⟨c0', rfl⟩ := entry_chains_shape k v c0 hc0
          rw [if_neg (append_cons_ne pre k k' c0' c' hkk)]
        simp only [buildF]
        rw [← hhead]
theorem setParts_entry (k : String) (v : JValue) (s : List String → JValue)
    (pre : List String) (c' : List String) (w : JValue) (tail : Fields)
    (hwf : wfValue v = true) (hc : (k :: c') ∈ entryChains k v) :
    setPartsF ((k, buildEntry k v s pre) :: tail) (k :: c') w
      = (k, buildEntry k v (fun q => if q = pre ++ k :: c' then w else s q) pre) :: tail := by
  match v with
  | .obj sub =>
      simp only [entryChains, List.mem_map] at hc
      obtain ⟨c0, hc0, he⟩ := hc
      have hce : c0 = c' := by injection he
      rw [hce] at hc0
      obtain ⟨kh, ch, rfl, _⟩ := chains_shape sub c' hc0
      show setPartsF ((k, JValue.obj (buildF sub s (pre ++ [k]))) :: tail)
          (k :: kh :: ch) w = _
      have hkey : getKeyF ((k, JValue.obj (buildF sub s (pre ++ [k]))) :: tail) k
          = some (JValue.obj (buildF sub s (pre ++ [k]))) := by simp [getKeyF]
      have hstep : setPartsF ((k, JValue.obj (buildF sub s (pre ++ [k]))) :: tail)
            (k :: kh :: ch) w
          = setKeyF ((k, JValue.obj (buildF sub s (pre ++ [k]))) :: tail) k
              (JValue.obj (setPartsF (buildF sub s (pre ++ [k])) (kh :: ch) w)) := by
        conv_lhs => rw [setPartsF]
        rw [hkey]
      rw [hstep, setParts_buildF sub s (pre ++ [k]) (kh :: ch) w hwf hc0]
      simp only [setKeyF, if_pos, buildEntry]
      simp [List.append_assoc]
  | .null | .bool _ | .num _ | .str _ | .arr _ =>
      simp only [entryChains, List.mem_singleton, List.cons.injEq, true_and] at hc
      have hce : c' = [] := by
        cases hc' : c' with
        | nil => rfl
        | cons a b => rw [hc'] at hc; simp at hc
      subst hce
      simp [setPartsF, setKeyF, buildEntry]
end


/-! ### The merge as a model-shaped object -/

theorem mergeField_eq_chain (u cur : JValue) (acc : Fields) (p : String) :
    mergeField u cur acc p = mergeFieldC u cur acc (splitDots p) := by
  unfold mergeField mergeFieldC chainChoice mergeFallback getNestedValue setNestedValue
  cases getPartsO (some u) (splitDots p) with
  | none => cases getPartsO (some cur) (splitDots p) <;> rfl
  | some v =>
      cases v with
      | null => cases getPartsO (some cur) (splitDots p) <;> rfl
      | bool b => rfl
      | num n => rfl
      | str s => rfl
      | arr l => rfl
      | obj f => rfl

theorem applyUpds_not_mem (u cur : JValue) :
    ∀ (cs : List (List String)) (s : List String → JValue) (c : List String),
      c ∉ cs → applyUpds u cur cs s c = s c
  | [], s, c, _ => rfl
  | c0 :: rest, s, c, h => by
      simp only [applyUpds]
      rw [applyUpds_not_mem u cur rest _ c fun hm => h (List.mem_cons_of_mem _ hm)]
      have hne : ¬(c = c0) := fun he => h (he ▸ List.mem_cons_self _ _)
      cases chainChoice u cur c0 <;> simp [hne]

theorem applyUpds_mem (u cur : JValue) :
    ∀ (cs : List (List String)) (s : List String → JValue) (c : List String),
      c ∈ cs → cs.Nodup →
      applyUpds u cur cs s c
        = match chainChoice u cur c with
          | some w => w
          | none => s c
  | [], _, c, hc, _ => by simp at hc
  | c0 :: rest, s, c, hc, hnd => by
      simp only [applyUpds]
      rcases List.mem_cons.mp hc with rfl | hc'
      · have hnin : c ∉ rest := (List.nodup_cons.mp hnd).1
        rw [applyUpds_not_mem u cur rest _ c hnin]
        cases chainChoice u cur c <;> simp
      · have hne : ¬(c = c0) := fun he =>
          (List.nodup_cons.mp hnd).1 (he ▸ hc')
        rw [applyUpds_mem u cur rest _ c hc' (List.nodup_cons.mp hnd).2]
        cases chainChoice u cur c0 <;> cases chainChoice u cur c <;> simp [hne]

theorem foldl_mergeFieldC (m : Fields) (u cur : JValue) (hwf : wfModel m = true) :
    ∀ (cs : List (List String)) (s : List String → JValue),
      (∀ c ∈ cs, c ∈ modelChains m) →
      cs.foldl (mergeFieldC u cur) (buildF m s []) = buildF m (applyUpds u cur cs s) []
  | [], s, _ => rfl
  | c :: rest, s, hcs => by
      simp only [List.foldl_cons, applyUpds]
      have hc := hcs c (List.mem_cons_self _ _)
      cases hch : chainChoice u cur c with
      | none =>
          simp only [mergeFieldC, hch]
          exact foldl_mergeFieldC m u cur hwf rest s
            fun c1 hc1 => hcs c1 (List.mem_cons_of_mem _ hc1)
      | some w =>
          simp only [mergeFieldC, hch]
          rw [setParts_buildF m s [] c w hwf hc]
          exact foldl_mergeFieldC m u cur hwf rest
            (fun q => if q = [] ++ c then w else s q)
            fun c1 hc1 => hcs c1 (List.mem_cons_of_mem _ hc1)

theorem merge_eq_buildF (u : JValue) (m : Fields) (cur : JValue)
    (hwf : wfModel m = true) :
    mergeStateWithModel u m cur = buildF m (chainSigma u cur) [] := by
  unfold mergeStateWithModel
  have h1 : (extractSMS m "").foldl
        (fun merged fld => mergeField u cur merged fld.1) (initializeStructure m)
      = ((extractSMS m "").map fun e => splitDots e.1).foldl (mergeFieldC u cur)
          (initializeStructure m) := by
    rw [List.foldl_map]
    congr 1
    funext acc fld
    exact mergeField_eq_chain u cur acc fld.1
  rw [h1, extract_split_eq_chains m hwf, init_eq_buildF m [],
    foldl_mergeFieldC m u cur hwf (modelChains m) _ fun c hc => hc]
  refine buildF_congr m _ _ [] fun c hc => ?_
  simp only [List.nil_append]
  rw [applyUpds_mem u cur (modelChains m) _ c hc (chains_nodup m hwf)]
  cases hch : chainChoice u cur c <;> simp [chainSigma, hch]


/-! ### Leaf paths of the merged object -/

mutual
theorem extract_buildF_paths (m : Fields) (s : List String → JValue)
    (preC : List String) (preS : String)
    (h : ∀ c ∈ modelChains m, isPlainObj (s (preC ++ c)) = false) :
    (extractSMS (buildF m s preC) preS).map Prod.fst
      = (extractSMS m preS).map Prod.fst := by
  match m with
  | [] => rfl
  | (k, v) :: rest =>
      simp only [buildF, extractSMS, List.map_append]
      rw [extract_buildEntry_paths k v s preC preS
          (fun c hc => h c (by simp only [modelChains, List.mem_append]; exact Or.inl hc)),
        extract_buildF_paths rest s preC preS
          (fun c hc => h c (by simp only [modelChains, List.mem_append]; exact Or.inr hc))]
theorem extract_buildEntry_paths (k : String) (v : JValue) (s : List String → JValue)
    (preC : List String) (preS : String)
    (h : ∀ c ∈ entryChains k v, isPlainObj (s (preC ++ c)) = false) :
    (extractEntry k (buildEntry k v s preC) preS).map Prod.fst
      = (extractEntry k v preS).map Prod.fst := by
  match v with
  | .obj sub =>
      show (extractSMS (buildF sub s (preC ++ [k])) (fullPath preS k)).map Prod.fst = _
      rw [extract_buildF_paths sub s (preC ++ [k]) (fullPath preS k)
        (fun c hc => by
          simpa [List.append_assoc] using h (k :: c)
            (by simp only [entryChains, List.mem_map]; exact ⟨c, hc, rfl⟩))]
      rfl
  | .null | .bool _ | .num _ | .str _ | .arr _ =>
      have hs := h [k] (by simp [entryChains])
      show (extractEntry k (s (preC ++ [k])) preS).map Prod.fst = [fullPath preS k]
      cases hv : s (preC ++ [k]) with
      | obj f => rw [hv] at hs; simp [isPlainObj] at hs
      | null => rfl
      | bool b => rfl
      | num n => rfl
      | str s2 => rfl
      | arr l => rfl
end

theorem statePaths_mem_chains (m : Fields) (hwf : wfModel m = true) (p : String)
    (hp : p ∈ statePaths m) : splitDots p ∈ modelChains m := by
  rw [← extract_split_eq_chains m hwf]
  simp only [statePaths, List.mem_map] at hp ⊢
  obtain ⟨e, he, rfl⟩ := hp
  exact ⟨e, he, rfl⟩

theorem mergedValueAt_eq_sigma (u cur : JValue) (p : String) :
    mergedValueAt u cur p = chainSigma u cur (splitDots p) := by
  unfold mergedValueAt chainSigma chainChoice getNestedValue
  cases getPartsO (some u) (splitDots p) with
  | none => rfl
  | some v => cases v <;> rfl

theorem merge_value_at (u : JValue) (m : Fields) (cur : JValue) (p : String)
    (hwf : wfModel m = true) (hp : p ∈ statePaths m) :
    getNestedValue (.obj (mergeStateWithModel u m cur)) p
      = some (mergedValueAt u cur p) := by
  rw [merge_eq_buildF u m cur hwf]
  unfold getNestedValue
  rw [getParts_buildF m (chainSigma u cur) [] (splitDots p) hwf
    (statePaths_mem_chains m hwf p hp)]
  rw [mergedValueAt_eq_sigma]
  simp


/-! ### The State Merger claims (C1, C2, C8) -/

/-- C1 (counterexample): with schema S = a single leaf field destination and a
candidate whose destination value is itself a plain object, the merged
result's flattened leaf paths are destination.city rather than destination,
so the merge does not return exactly the schema's field paths. -/
theorem c1_schema_fidelity_counterexample :
    statePaths (mergeStateWithModel
        (.obj [("destination", .obj [("city", .str "Tokyo")])])
        [("destination", .str "Travel destination")] (.obj []))
      = ["destination.city"]
    ∧ statePaths [("destination", .str "Travel destination")] = ["destination"]
    ∧ ("destination.city" : String) ≠ "destination" := by
  refine ⟨rfl, rfl, ?_⟩
  decide

/-- C1 (amended): for a well-formed state model (non-empty, dot-free,
pairwise-distinct keys at every level), whenever the value the merge settles
on at each schema field path is not itself a plain non-array object, the
merged object's flattened leaf field paths are exactly the schema's
flattened field paths - no path missing and none added. -/
theorem c1_schema_fidelity_amended (u : JValue) (m : Fields) (cur : JValue)
    (hwf : wfModel m = true)
    (hleaves : ∀ p ∈ statePaths m, isPlainObj (mergedValueAt u cur p) = false) :
    statePaths (mergeStateWithModel u m cur) = statePaths m := by
  have hcond : ∀ c ∈ modelChains m, isPlainObj (chainSigma u cur ([] ++ c)) = false := by
    intro c hc
    rw [← extract_split_eq_chains m hwf] at hc
    simp only [List.mem_map] at hc
    obtain ⟨e, he, rfl⟩ := hc
    have hp : e.1 ∈ statePaths m := by
      simp only [statePaths, List.mem_map]
      exact ⟨e, he, rfl⟩
    have hv := hleaves e.1 hp
    rw [mergedValueAt_eq_sigma] at hv
    simpa using hv
  unfold statePaths
  rw [merge_eq_buildF u m cur hwf,
    extract_buildF_paths m (chainSigma u cur) [] "" hcond]

theorem c1_schema_fidelity_amended_witness :
    wfModel [("trip", .obj [("destination", .str "d1"), ("budget", .str "d2")])] = true
    ∧ statePaths (mergeStateWithModel (.obj [("trip", .obj [("destination", .str "Tokyo")])])
        [("trip", .obj [("destination", .str "d1"), ("budget", .str "d2")])]
        (.obj [("trip", .obj [("budget", .num 900)])]))
      = statePaths [("trip", .obj [("destination", .str "d1"), ("budget", .str "d2")])] :=
  ⟨rfl, c1_schema_fidelity_amended _ _ _ rfl (by decide)⟩

/-- C2: at every schema field path of a well-formed state model, the merged
state holds the candidate's value when that value is defined and non-null;
otherwise the current state's value at that path when defined (null
included); otherwise null. -/
theorem c2_merge_null_fallback (u : JValue) (m : Fields) (cur : JValue) (p : String)
    (hwf : wfModel m = true) (hp : p ∈ statePaths m) :
    ((getNestedValue u p = none ∨ getNestedValue u p = some .null) →
        ∀ w, getNestedValue cur p = some w →
          getNestedValue (.obj (mergeStateWithModel u m cur)) p = some w)
    ∧ ((getNestedValue u p = none ∨ getNestedValue u p = some .null) →
        getNestedValue cur p = none →
          getNestedValue (.obj (mergeStateWithModel u m cur)) p = some .null)
    ∧ (∀ v, getNestedValue u p = some v → v ≠ .null →
          getNestedValue (.obj (mergeStateWithModel u m cur)) p = some v) := by
  have hval := merge_value_at u m cur p hwf hp
  refine ⟨?_, ?_, ?_⟩
  · intro hu w hcur
    rw [hval]
    rcases hu with hu | hu <;> simp [mergedValueAt, hu, hcur]
  · intro hu hcur
    rw [hval]
    rcases hu with hu | hu <;> simp [mergedValueAt, hu, hcur]
  · intro v hu hvne
    rw [hval]
    cases v with
    | null => exact absurd rfl hvne
    | bool b => simp [mergedValueAt, hu]
    | num n => simp [mergedValueAt, hu]
    | str s => simp [mergedValueAt, hu]
    | arr l => simp [mergedValueAt, hu]
    | obj f => simp [mergedValueAt, hu]

theorem c2_merge_null_fallback_witness :
    getNestedValue (.obj (mergeStateWithModel (.obj [("destination", JValue.null)])
        [("destination", .str "Travel destination")]
        (.obj [("destination", .str "Tokyo")]))) "destination"
      = some (.str "Tokyo") :=
  (c2_merge_null_fallback (.obj [("destination", JValue.null)])
    [("destination", .str "Travel destination")]
    (.obj [("destination", .str "Tokyo")]) "destination" rfl
    (by simp [statePaths, extractSMS, extractEntry, fullPath])).1
    (Or.inr rfl) (.str "Tokyo") rfl

/-- C8 (counterexample): merging the merged result again against the same
state model and prior state is not always a no-op.  With the model
a.length / "" (an object with leaves b and a) / a.0, the empty top-level key
is falsy in the path-building expression prefix ? prefix + '.' + key : key,
so its children contribute the bare paths b and a, while a.length and a.0
contribute dot-split chains through the top-level property a that is not a
key of the initialized structure.  For the candidate with a = [7] and b = 5,
the first merge writes 1 at a.length (appending the property a first), then
appends b, then replaces a with the array [7], and finally the write at a.0
replaces the array intermediate with the fresh object, leaving a = an object
holding only the index 0 - so the merged object reads nothing at a.length.
Remerging therefore skips a.length and first appends b, then a: the remerged
object carries the properties a and b in the opposite insertion order, and
the two results are different objects (JSON.stringify, which the node uses to
compare states, distinguishes them). -/
theorem c8_idempotence_counterexample :
    (mergeStateWithModel
        (.obj [("a", .arr [.num 7]), ("b", .num 5)])
        [("a.length", .str "d"),
         ("", .obj [("b", .str "d"), ("a", .str "d")]),
         ("a.0", .str "d")]
        (.obj [])).map Prod.fst = ["a.length", "", "a.0", "a", "b"]
    ∧ (mergeStateWithModel
        (.obj (mergeStateWithModel
          (.obj [("a", .arr [.num 7]), ("b", .num 5)])
          [("a.length", .str "d"),
           ("", .obj [("b", .str "d"), ("a", .str "d")]),
           ("a.0", .str "d")]
          (.obj [])))
        [("a.length", .str "d"),
         ("", .obj [("b", .str "d"), ("a", .str "d")]),
         ("a.0", .str "d")]
        (.obj [])).map Prod.fst = ["a.length", "", "a.0", "b", "a"]
    ∧ mergeStateWithModel
        (.obj (mergeStateWithModel
          (.obj [("a", .arr [.num 7]), ("b", .num 5)])
          [("a.length", .str "d"),
           ("", .obj [("b", .str "d"), ("a", .str "d")]),
           ("a.0", .str "d")]
          (.obj [])))
        [("a.length", .str "d"),
         ("", .obj [("b", .str "d"), ("a", .str "d")]),
         ("a.0", .str "d")]
        (.obj [])
      ≠ mergeStateWithModel
          (.obj [("a", .arr [.num 7]), ("b", .num 5)])
          [("a.length", .str "d"),
           ("", .obj [("b", .str "d"), ("a", .str "d")]),
           ("a.0", .str "d")]
          (.obj []) :=
  ⟨rfl, rfl, fun h => absurd (congrArg (List.map Prod.fst) h) (by decide)⟩

/-- C8 (amended): for a well-formed state model (keys non-empty, dot-free and
pairwise distinct at every level), merging an already-merged object against
the same state model and the same prior state reproduces it unchanged - the
merge is idempotent. -/
theorem c8_merge_idempotent_amended (u : JValue) (m : Fields) (cur : JValue)
    (hwf : wfModel m = true) :
    mergeStateWithModel (.obj (mergeStateWithModel u m cur)) m cur
      = mergeStateWithModel u m cur := by
  rw [merge_eq_buildF u m cur hwf,
    merge_eq_buildF (.obj (buildF m (chainSigma u cur) [])) m cur hwf]
  refine buildF_congr m _ _ [] fun c hc => ?_
  simp only [List.nil_append]
  have hM : getPartsO (some (.obj (buildF m (chainSigma u cur) []))) c
      = some (chainSigma u cur c) := by
    simpa using getParts_buildF m (chainSigma u cur) [] c hwf hc
  cases hu : getPartsO (some u) c with
  | none =>
      cases hcur : getPartsO (some cur) c with
      | none => simp [chainSigma, chainChoice, hM, hu, hcur]
      | some w => cases w <;> simp [chainSigma, chainChoice, hM, hu, hcur]
  | some v =>
      cases v with
      | null =>
          cases hcur : getPartsO (some cur) c with
          | none => simp [chainSigma, chainChoice, hM, hu, hcur]
          | some w => cases w <;> simp [chainSigma, chainChoice, hM, hu, hcur]
      | bool b => simp [chainSigma, chainChoice, hM, hu]
      | num n => simp [chainSigma, chainChoice, hM, hu]
      | str s => simp [chainSigma, chainChoice, hM, hu]
      | arr l => simp [chainSigma, chainChoice, hM, hu]
      | obj f => simp [chainSigma, chainChoice, hM, hu]

theorem c8_merge_idempotent_amended_witness :
    mergeStateWithModel (.obj (mergeStateWithModel
        (.obj [("destination", .str "Tokyo")])
        [("destination", .str "d1"), ("weather_info", .str "d2")]
        (.obj [("weather_info", .obj [("temp", .num 72)])])))
      [("destination", .str "d1"), ("weather_info", .str "d2")]
      (.obj [("weather_info", .obj [("temp", .num 72)])])
      = mergeStateWithModel (.obj [("destination", .str "Tokyo")])
        [("destination", .str "d1"), ("weather_info", .str "d2")]
        (.obj [("weather_info", .obj [("temp", .num 72)])]) :=
  c8_merge_idempotent_amended _ _ _ rfl


/-! ### The extraction-round claims (C3, C9) -/

theorem getKeyF_map_keys (keys : List String) (g : String → JValue) (k : String)
    (hk : k ∈ keys) :
    getKeyF (keys.map fun k0 => (k0, g k0)) k = some (g k) := by
  induction keys with
  | nil => simp at hk
  | cons k0 rest ih =>
      by_cases h : k0 = k
      · subst h; simp [getKeyF]
      · rcases List.mem_cons.mp hk with rfl | hk'
        · exact absurd rfl h
        · simp [getKeyF, h, ih hk']

theorem getKeyF_fold_set_not_mem (keys : List String) (g : String → JValue)
    (k : String) (hk : k ∉ keys) :
    ∀ st : Fields,
      getKeyF (keys.foldl (fun st2 k0 => setKeyF st2 k0 (g k0)) st) k = getKeyF st k := by
  induction keys with
  | nil => intro st; rfl
  | cons k0 rest ih =>
      intro st
      have h0 : k0 ≠ k := fun he => hk (he ▸ List.mem_cons_self _ _)
      rw [List.foldl_cons, ih fun hm => hk (List.mem_cons_of_mem _ hm),
        getKeyF_setKeyF_other st k0 k (g k0) h0]

theorem getKeyF_fold_set (keys : List String) (g : String → JValue) (k : String)
    (hk : k ∈ keys) :
    ∀ st : Fields,
      getKeyF (keys.foldl (fun st2 k0 => setKeyF st2 k0 (g k0)) st) k = some (g k) := by
  induction keys with
  | nil => simp at hk
  | cons k0 rest ih =>
      intro st
      by_cases hr : k ∈ rest
      · rw [List.foldl_cons, ih hr]
      · rcases List.mem_cons.mp hk with rfl | hk'
        · rw [List.foldl_cons, getKeyF_fold_set_not_mem rest g k hr,
            getKeyF_setKeyF_same]
        · exact absurd hk' hr

theorem isFirstRunB_of_none (sm : Fields) (prevState : Fields)
    (h : ∀ k ∈ keysOf sm, getKeyF prevState k = none) :
    isFirstRunB sm prevState = true := by
  simp only [isFirstRunB, Bool.not_eq_true', List.any_eq_false]
  intro k hk
  simp [h k hk]

theorem validate_ok_state (parsed : JValue) (sm : Fields) (st : Fields)
    (prevOnly : Fields) (chIn : List String) (first : Bool) (nf : Fields)
    (out : Fields × List String)
    (hstate : jsGetProp parsed "state" = .ok (some (.obj nf)))
    (hrun : validateAndExtractState parsed sm st prevOnly chIn first = .ok out) :
    out.1 = (keysOf sm).foldl
      (fun st2 k => setKeyF st2 k ((getKeyF nf k).getD .null)) st := by
  simp only [validateAndExtractState, hstate, Option.getD_some, bind, Except.bind,
    jsOr, jsTruthy, if_true, jsObjView] at hrun
  split at hrun
  · injection hrun with h1; rw [← h1]
  · injection hrun with h1; rw [← h1]

/-- C9: in the initial extraction round, validateAndExtractState copies the
parsed output's state value verbatim for every top-level schema key - a key
missing from the model's output (or set to null) leaves null in the working
state, with no fallback to the previous state's value: the previous state
prevOnly is arbitrary here and absent from the conclusion. -/
theorem c9_extract_copies_verbatim (parsed : JValue) (sm : Fields) (st : Fields)
    (prevOnly : Fields) (chIn : List String) (first : Bool) (nf : Fields) (k : String)
    (out : Fields × List String)
    (hstate : jsGetProp parsed "state" = .ok (some (.obj nf)))
    (hk : k ∈ keysOf sm)
    (hrun : validateAndExtractState parsed sm st prevOnly chIn first = .ok out) :
    getKeyF out.1 k = some ((getKeyF nf k).getD .null) := by
  rw [validate_ok_state parsed sm st prevOnly chIn first nf out hstate hrun]
  exact getKeyF_fold_set (keysOf sm) (fun k0 => (getKeyF nf k0).getD .null) k hk st

theorem c9_extract_copies_verbatim_witness :
    jsGetProp (.obj [("state", .obj [("destination", JValue.null)])]) "state"
        = .ok (some (.obj [("destination", JValue.null)]))
    ∧ "destination" ∈ keysOf [("destination", .str "d")]
    ∧ validateAndExtractState (.obj [("state", .obj [("destination", JValue.null)])])
        [("destination", .str "d")] [] [("destination", .str "Tokyo")] [] false
        = .ok ([("destination", JValue.null)], ["destination"])
    ∧ getKeyF [("destination", JValue.null)] "destination" = some JValue.null :=
  ⟨rfl, by simp [keysOf], rfl,
    c9_extract_copies_verbatim (.obj [("state", .obj [("destination", JValue.null)])])
      [("destination", .str "d")] [] [("destination", .str "Tokyo")] [] false
      [("destination", JValue.null)] "destination"
      ([("destination", JValue.null)], ["destination"]) rfl (by simp [keysOf]) rfl⟩

/-- C3 (counterexample): on a first run (empty store) with the non-empty
model-extracted state having one non-null field a and one null field b, the
computed changeset is just a, not the full schema key list. -/
theorem c3_first_run_counterexample :
    firstRoundExtract [("a", .str "da"), ("b", .str "db")] []
        (.obj [("state", .obj [("a", .str "x"), ("b", JValue.null)])])
      = .ok ([("a", .str "x"), ("b", JValue.null)], ["a"])
    ∧ keysOf [("a", .str "da"), ("b", .str "db")] = ["a", "b"]
    ∧ (["a"] : List String) ≠ ["a", "b"] := by
  refine ⟨rfl, rfl, ?_⟩
  decide

/-- C3 (amended): on the first interaction of a session (no schema field in
the stored state), when every value of the model-extracted state object at a
schema key is null or missing, the computed changeset is the full list of
schema keys: the comparison against the all-null previous values finds no
difference and the empty change list is replaced by all keys. -/
theorem c3_first_run_forcing_amended (sm : Fields) (prevState : Fields)
    (parsed : JValue) (nf : Fields)
    (hfirst : ∀ k ∈ keysOf sm, getKeyF prevState k = none)
    (hstate : jsGetProp parsed "state" = .ok (some (.obj nf)))
    (hnull : ∀ k ∈ keysOf sm, getKeyF nf k = none ∨ getKeyF nf k = some .null) :
    (firstRoundExtract sm prevState parsed).map (fun r => r.2)
      = .ok (keysOf sm) := by
  unfold firstRoundExtract
  simp only [validateAndExtractState, hstate, Option.getD_some, bind, Except.bind,
    jsOr, jsTruthy, if_true, jsObjView]
  have hch : ((keysOf sm).filter fun k =>
      stringifyOpt (getKeyF (prevModelOnly sm prevState) k)
        ≠ stringifyOpt (getKeyF ((keysOf sm).foldl
            (fun st2 k0 => setKeyF st2 k0 ((getKeyF nf k0).getD .null)) []) k)) = [] := by
    rw [List.filter_eq_nil_iff]
    intro k hk
    have h1 : getKeyF (prevModelOnly sm prevState) k = some JValue.null := by
      unfold prevModelOnly
      rw [getKeyF_map_keys (keysOf sm) _ k hk, hfirst k hk]
      rfl
    have h2 : getKeyF ((keysOf sm).foldl
        (fun st2 k0 => setKeyF st2 k0 ((getKeyF nf k0).getD .null)) []) k
        = some JValue.null := by
      rw [getKeyF_fold_set (keysOf sm) _ k hk]
      rcases hnull k hk with h | h <;> rw [h] <;> rfl
    simp [h1, h2]
  rw [isFirstRunB_of_none sm prevState hfirst]
  simp only [hch]
  simp [Except.map, pure, Except.pure]

theorem c3_first_run_forcing_amended_witness :
    (∀ k ∈ keysOf [("a", JValue.str "da"), ("b", .str "db")],
        getKeyF [] k = none)
    ∧ (firstRoundExtract [("a", JValue.str "da"), ("b", .str "db")] []
        (.obj [("state", .obj [("a", JValue.null)])])).map (fun r => r.2)
      = .ok ["a", "b"] :=
  ⟨fun k _ => rfl,
    c3_first_run_forcing_amended [("a", JValue.str "da"), ("b", .str "db")] []
      (.obj [("state", .obj [("a", JValue.null)])]) [("a", JValue.null)]
      (fun k _ => rfl) rfl
      (fun k hk => by
        simp [keysOf] at hk
        rcases hk with rfl | rfl
        · exact Or.inr rfl
        · exact Or.inl rfl)⟩


/-! ### Dispatcher claims (C4, C7, C10) -/

/-- C4: when the double-prompt post-tool reconciliation call returns text
that is not valid JSON after fence stripping, the parse error is caught
inside that round: the working state and the changeset come out exactly as
they went in, and the separate response-generation call still runs, its text
becoming the response. -/
theorem c4_optional_round_swallowed (sm : Fields) (postRaw respRaw : String)
    (state : Fields) (changed : List String)
    (hbad : jsonParse (cleanJsonResponse postRaw) = none) :
    afterToolsDouble sm postRaw respRaw state changed
      = (state, changed, .str respRaw) := by
  unfold afterToolsDouble postToolStatePhase
  rw [hbad]

theorem c4_optional_round_swallowed_witness :
    jsonParse (cleanJsonResponse "Sorry, I could not produce the state.") = none
    ∧ afterToolsDouble [("destination", .str "d")]
        "Sorry, I could not produce the state." "Enjoy your trip!"
        [("destination", .str "Tokyo")] ["destination"]
      = ([("destination", .str "Tokyo")], ["destination"], .str "Enjoy your trip!") :=
  ⟨rfl, c4_optional_round_swallowed [("destination", .str "d")]
    "Sorry, I could not produce the state." "Enjoy your trip!"
    [("destination", .str "Tokyo")] ["destination"] rfl⟩

/-- C10: the dispatcher's name resolution is not total over malformed
requests: a request whose tool_name is absent, dispatched while a tool is
connected, makes tool_name.toLowerCase() throw a TypeError, so the request
is not skipped silently - the whole batch aborts with the error and no
result is recorded. -/
theorem c10_missing_tool_name_throws :
    invokeTools [.obj [("reason", .str "to fetch the weather")]]
      [⟨"Weather API", "Gets weather", fun _ => .ok (.str "sunny")⟩]
      [("weather_info", .str "d")] [] []
      = .error "TypeError: tool_name.toLowerCase is not a function" := rfl

/-- C7 (counterexample): resolution is a single ordered scan with a
disjunctive predicate, not exact-match-first: with catalog
[weather api, Weather API] and requested name Weather API, the code resolves
the first, case-insensitive match weather api even though an exact match
exists later in the catalog. -/
theorem c7_resolution_counterexample :
    (findTool [⟨"weather api", "", fun _ => .ok .null⟩,
        ⟨"Weather API", "", fun _ => .ok .null⟩] "Weather API").map Tool.name
      = some "weather api"
    ∧ (specResolveTool [⟨"weather api", "", fun _ => .ok .null⟩,
        ⟨"Weather API", "", fun _ => .ok .null⟩] "Weather API").map Tool.name
      = some "Weather API"
    ∧ some ("weather api" : String) ≠ some "Weather API" := by
  refine ⟨rfl, rfl, ?_⟩
  decide

/-- C7 (amended): the requested tool_name (a string) is resolved by one scan
of the connected catalog in order, choosing the first tool whose name
matches exactly or case-insensitively; when no tool matches, the request is
skipped silently - nothing is added to the results, no error is raised, and
the remaining requests of the batch are processed as if the request were not
there. -/
theorem c7_resolution_amended :
    (∀ (req : JValue) (rest : List JValue) (tools : List Tool) (n : String)
        (rsn ip sf : Option JValue) (sm st : Fields) (ch : List String),
        destructReq req = .ok (some (.str n), rsn, ip, sf) →
        (∀ t ∈ tools, matchesName t n = false) →
        invokeTools (req :: rest) tools sm st ch = invokeTools rest tools sm st ch)
    ∧ (∀ (pre suf : List Tool) (t : Tool) (n : String),
        (∀ t' ∈ pre, matchesName t' n = false) → matchesName t n = true →
        findTool (pre ++ t :: suf) n = some t) := by
  constructor
  · intro req rest tools n rsn ip sf sm st ch hreq hnone
    show invokeTools (req :: rest) tools sm st ch = _
    rw [invokeTools]
    simp only [hreq, bind, Except.bind]
    cases tools with
    | nil => rfl
    | cons t0 ts =>
        have hfind : (t0 :: ts).find? (matchesName · n) = none :=
          List.find?_eq_none.mpr fun t ht => by simp [hnone t ht]
        simp [hfind]
  · intro pre suf t n hpre ht
    induction pre with
    | nil => simp [findTool, List.find?, ht]
    | cons t0 ts ih =>
        have h0 := hpre t0 (List.mem_cons_self _ _)
        simp only [findTool, List.cons_append, List.find?, h0]
        exact ih fun t' ht' => hpre t' (List.mem_cons_of_mem _ ht')

theorem c7_resolution_amended_witness :
    destructReq (.obj [("tool_name", .str "Search API")])
        = .ok (some (.str "Search API"), none, none, none)
    ∧ (∀ t ∈ [Tool.mk "Weather API" "" fun _ => .ok .null],
        matchesName t "Search API" = false)
    ∧ invokeTools [.obj [("tool_name", .str "Search API")]]
        [Tool.mk "Weather API" "" fun _ => .ok .null] [("a", .str "d")] [] []
      = invokeTools [] [Tool.mk "Weather API" "" fun _ => .ok .null]
          [("a", .str "d")] [] []
    ∧ findTool ([] ++ (Tool.mk "Weather API" "" fun _ => .ok .null) :: [])
        "weather api" = some (Tool.mk "Weather API" "" fun _ => .ok .null) :=
  ⟨rfl, fun t ht => by simp at ht; rw [ht]; rfl,
    c7_resolution_amended.1 (.obj [("tool_name", .str "Search API")]) []
      [Tool.mk "Weather API" "" fun _ => .ok .null] "Search API" none none none
      [("a", .str "d")] [] [] rfl
      (fun t ht => by simp at ht; rw [ht]; rfl),
    c7_resolution_amended.2 [] [] (Tool.mk "Weather API" "" fun _ => .ok .null)
      "weather api" (fun t' ht' => by simp at ht') rfl⟩


/-! ### Tool isolation (C5) -/

/-- C5: tool isolation within one dispatch batch.  With request A resolving
to a tool whose invocation throws and request B resolving to a tool that
succeeds, the batch returns: A present in the results only as an error
record carrying its tool_name, state_field and the thrown message; B's
result recorded and B's tool name in the invoked list; and B's parsed result
written to the working state at its declared state_field (a schema key whose
stringified value differs), which is appended to the changeset. -/
theorem c5_tool_isolation (reqA reqB : JValue) (nA nB fB : String)
    (rsnA rsnB ipA ipB sfA : Option JValue) (t0 : Tool) (ts : List Tool)
    (tA tB : Tool) (msg : String) (resB : JValue)
    (sm st : Fields) (ch : List String)
    (hA : destructReq reqA = .ok (some (.str nA), rsnA, ipA, sfA))
    (hB : destructReq reqB = .ok (some (.str nB), rsnB, ipB, some (.str fB)))
    (hfA : (t0 :: ts).find? (matchesName · nA) = some tA)
    (hfB : (t0 :: ts).find? (matchesName · nB) = some tB)
    (hinvA : tA.invoke (jsOr (ipA.getD .null) (.obj [])) = .error msg)
    (hinvB : tB.invoke (jsOr (ipB.getD .null) (.obj [])) = .ok resB)
    (hfB0 : fB ≠ "")
    (hkey : fB ∈ keysOf sm)
    (hdiff : stringifyOpt (getKeyF st fB) ≠ some (stringify (parseToolResult resB)))
    (hch : fB ∉ ch) :
    invokeTools [reqA, reqB] (t0 :: ts) sm st ch
      = .ok ([.str nB],
          [⟨some (.str nA), sfA, .error msg⟩,
           ⟨some (.str nB), some (.str fB), .ok resB⟩],
          setKeyF st fB (parseToolResult resB), ch ++ [fB]) := by
  have htr : jsTruthyOpt (some (JValue.str fB)) = true := by
    simp [jsTruthyOpt, jsTruthy, hfB0]
  have hkeyd : jsToKey ((some (JValue.str fB)).getD .null) = fB := by
    simp [jsToKey]
  have hdiff2 : (stringifyOpt (getKeyF st fB) = some (stringify (parseToolResult resB)))
      = False := by
    simp only [eq_iff_iff, iff_false]
    exact hdiff
  rw [invokeTools]
  simp only [hA, bind, Except.bind, hfA, Option.map_some']
  rw [hinvA]
  rw [invokeTools]
  simp only [hB, bind, Except.bind, hfB, Option.map_some']
  rw [hinvB]
  simp only [htr, Bool.not_true, Bool.false_eq_true, if_false, if_true, hkeyd]
  simp only [invokeTools, hkey, if_true, ite_true, hdiff2, if_false, ite_false]
  simp [hch, Except.map]
  exact hdiff


theorem c5_tool_isolation_witness :
    invokeTools
      [.obj [("tool_name", .str "Flight Search"), ("state_field", .str "flights")],
       .obj [("tool_name", .str "Weather API"), ("state_field", .str "weather_info")]]
      [⟨"Flight Search", "", fun _ => .error "network down"⟩,
       ⟨"Weather API", "", fun _ => .ok (.str "\x7b\"temp\":72\x7d")⟩]
      [("flights", .str "d1"), ("weather_info", .str "d2")] [] []
      = .ok ([.str "Weather API"],
          [⟨some (.str "Flight Search"), some (.str "flights"), .error "network down"⟩,
           ⟨some (.str "Weather API"), some (.str "weather_info"),
             .ok (.str "\x7b\"temp\":72\x7d")⟩],
          [("weather_info", .obj [("temp", .num 72)])], ["weather_info"]) :=
  c5_tool_isolation
    (.obj [("tool_name", .str "Flight Search"), ("state_field", .str "flights")])
    (.obj [("tool_name", .str "Weather API"), ("state_field", .str "weather_info")])
    "Flight Search" "Weather API" "weather_info" none none none none
    (some (.str "flights"))
    ⟨"Flight Search", "", fun _ => .error "network down"⟩
    [⟨"Weather API", "", fun _ => .ok (.str "\x7b\"temp\":72\x7d")⟩]
    ⟨"Flight Search", "", fun _ => .error "network down"⟩
    ⟨"Weather API", "", fun _ => .ok (.str "\x7b\"temp\":72\x7d")⟩
    "network down" (.str "\x7b\"temp\":72\x7d")
    [("flights", .str "d1"), ("weather_info", .str "d2")] [] []
    rfl rfl rfl rfl rfl rfl (by decide) (by decide)
    (by intro h; exact Option.noConfusion h) (by simp)


/-! ### Persistence (C6) -/

theorem except_bind_ok {α β : Type} {x : Except String α} {f : α → Except String β}
    {b : β} (h : x >>= f = .ok b) : ∃ a, x = .ok a ∧ f a = .ok b := by
  cases x with
  | error e => simp [Bind.bind, Except.bind] at h
  | ok a => exact ⟨a, rfl, by simpa [Bind.bind, Except.bind] using h⟩

theorem jsOr_arr_truthy (a : JValue) (l : List JValue) :
    jsTruthy (jsOr a (.arr l)) = true := by
  by_cases h : jsTruthy a = true
  · rw [jsOr, if_pos h]; exact h
  · rw [jsOr, if_neg h]; rfl

theorem mainPhase_no_model (p : AgentParams) (llm : Nat → String)
    (prevState : Fields) (tools : List Tool) (main : JValue × Fields × List String)
    (hsm : p.stateModel = none)
    (h : mainPhase p llm prevState tools = .ok main) : main.2.2 = [] := by
  unfold mainPhase at h
  rw [hsm] at h
  injection h with h1
  rw [← h1]

/-- C6: in every interaction that completes, the store's set is invoked
exactly when the changeset is non-empty after all rounds (the writes list of
the outcome is non-empty iff stateChangedProps is); and when conversation
history is enabled, the history append always puts conversation_history into
the changeset, which alone forces a write. -/
theorem c6_persistence (p : AgentParams) (llm : Nat → String) (storeGet : Fields)
    (tools : List Tool) (out : AgentOutput)
    (hrun : executeAgent p llm storeGet tools = .ok out) :
    (out.writes ≠ [] ↔ out.stateChangedProps ≠ [])
    ∧ (p.conversationHistory = true →
        "conversation_history" ∈ out.stateChangedProps ∧ out.writes ≠ []) := by
  unfold executeAgent at hrun
  obtain ⟨main, hmain, hfin⟩ := except_bind_ok hrun
  obtain ⟨resp, stt, chg⟩ := main
  unfold finishPhase at hfin
  dsimp only at hfin
  cases hh : p.conversationHistory with
  | false =>
      rw [hh] at hfin
      simp only [Bool.false_eq_true, reduceIte, Bind.bind, Except.bind, Bool.or_false]
        at hfin
      injection hfin with hout
      rw [← hout]
      cases hsm : p.stateModel with
      | some sm =>
          constructor
          · by_cases hc : chg = []
            · simp [hc]
            · simp [hc]
          · intro hcontra
            exact absurd hcontra (by simp)
      | none =>
          have hempty : chg = [] :=
            mainPhase_no_model p llm _ tools (resp, stt, chg) hsm hmain
          rw [hempty]
          constructor
          · simp
          · intro hcontra
            exact absurd hcontra (by simp)
  | true =>
      rw [hh] at hfin
      simp only [reduceIte, Bool.or_true] at hfin
      generalize hg : jsOr ((getKeyF storeGet "conversation_history").getD JValue.null)
          (JValue.arr []) = hv at hfin
      have htv : jsTruthy hv = true := by rw [← hg]; exact jsOr_arr_truthy _ _
      rw [htv] at hfin
      simp only [reduceIte] at hfin
      cases hv with
      | null => simp [jsTruthy] at htv
      | bool b => simp [Bind.bind, Except.bind] at hfin
      | num n => simp [Bind.bind, Except.bind] at hfin
      | str s => simp [Bind.bind, Except.bind] at hfin
      | obj f => simp [Bind.bind, Except.bind] at hfin
      | arr l =>
          simp only [Bind.bind, Except.bind] at hfin
          injection hfin with hout
          rw [← hout]
          dsimp only
          have hmem : "conversation_history" ∈
              (if "conversation_history" ∈ chg then chg
               else chg ++ ["conversation_history"]) := by
            by_cases hin : "conversation_history" ∈ chg
            · simp [hin]
            · simp [hin]
          have hne : (if "conversation_history" ∈ chg then chg
              else chg ++ ["conversation_history"]) ≠ [] :=
            List.ne_nil_of_mem hmem
          refine ⟨?_, fun _ => ⟨hmem, ?_⟩⟩
          · simp [hne]
          · simp [hne]


theorem c6_persistence_witness :
    ((["\x7b\"destination\":\"Tokyo\",\"conversation_history\":[\x7b\"role\":\"user\",\"message\":\"Hi\"\x7d,\x7b\"role\":\"assistant\",\"message\":\"Great!\"\x7d]\x7d"] : List String) ≠ []
      ↔ (["destination", "conversation_history"] : List String) ≠ [])
    ∧ (true = true →
        "conversation_history" ∈ ["destination", "conversation_history"]
        ∧ (["\x7b\"destination\":\"Tokyo\",\"conversation_history\":[\x7b\"role\":\"user\",\"message\":\"Hi\"\x7d,\x7b\"role\":\"assistant\",\"message\":\"Great!\"\x7d]\x7d"] : List String) ≠ []) :=
  c6_persistence ⟨"Hi", some [("destination", .str "d")], true, true⟩
    (fun _ => "\x7b\"state\":\x7b\"destination\":\"Tokyo\"\x7d,\"response\":\"Great!\"\x7d")
    [] []
    ⟨.str "Great!", [("destination", .str "Tokyo"),
        ("conversation_history", .arr
          [.obj [("role", .str "user"), ("message", .str "Hi")],
           .obj [("role", .str "assistant"), ("message", .str "Great!")]])], [],
        ["destination", "conversation_history"],
        ["\x7b\"destination\":\"Tokyo\",\"conversation_history\":[\x7b\"role\":\"user\",\"message\":\"Hi\"\x7d,\x7b\"role\":\"assistant\",\"message\":\"Great!\"\x7d]\x7d"]⟩
    rfl



/-- C2 (counterexample): the claim quantifies over every state model, but
with the model ("a" scalar, "a.b" also a field path) the loop's later write
at a.b forces the intermediate a to a fresh object, clobbering the
candidate's non-null value 5 that the earlier iteration had written: the
merged value at a is the object containing b, not the candidate's value. -/
theorem c2_null_fallback_counterexample :
    getNestedValue (.obj [("a", .num 5)]) "a" = some (.num 5)
    ∧ (JValue.num 5 ≠ .null)
    ∧ getNestedValue
        (.obj (mergeStateWithModel (.obj [("a", .num 5)])
          [("a", .str "y"), ("a.b", .str "x")]
          (.obj [("a", .obj [("b", .num 9)])]))) "a"
      = some (.obj [("b", .num 9)])
    ∧ (JValue.obj [("b", .num 9)] ≠ .num 5) :=
  ⟨rfl, fun h => JValue.noConfusion h, rfl, fun h => JValue.noConfusion h⟩

end StatefulAI
